import Mathlib

/-!
Verification of the upcore-agent server core against its specification.

The definitions below are a shallow embedding of the TypeScript sources:
  * the phase/checkpoint variant of `runAgent` (server agent loop with
    stream decoding, token/turn ceilings, tool execution, cancellation),
  * the checkpoint store (`saveCheckpoint` / `loadCheckpoint` / `clearCheckpoint`),
  * the Telegram message writer (buffer pagination and tool markers),
  * the fixed-window rate limiter (`checkRateLimit`),
  * the `run_command` and `write_file` tool handlers.

External collaborators (the model streaming RPC, `JSON.parse`, the tool
handlers' I/O, the shell, the filesystem, Date.now) are modelled as
explicit oracle parameters or explicit state, exactly where the source
calls out to them.
-/

/-! ## JS string primitives

The handlers run on JS strings; the operations they use (`trim`,
`startsWith`, `endsWith`, `slice`, `split`, `toLowerCase`) are modelled
here directly on the character sequence, so that every model function
computes by plain kernel reduction. -/

/-- The whitespace classes `trim` strips (the ones occurring in practice). -/
def jsWhitespace (c : Char) : Bool :=
  (c == ' ') || (c == '\t') || (c == '\n') || (c == '\r')

/-- JS `String.prototype.trim`. -/
def jsTrim (s : String) : String :=
  String.mk (((s.toList.dropWhile jsWhitespace).reverse.dropWhile jsWhitespace).reverse)

/-- JS `s.startsWith(p)`. -/
def strStartsWith (s p : String) : Bool :=
  p.toList.isPrefixOf s.toList

/-- JS `s.endsWith(p)`. -/
def strEndsWith (s p : String) : Bool :=
  p.toList.isSuffixOf s.toList

/-- JS `s.slice(0, n)`. -/
def jsTake (s : String) (n : Nat) : String :=
  String.mk (s.toList.take n)

/-- JS `s.toLowerCase()` (ASCII). -/
def jsToLower (s : String) : String :=
  String.mk (s.toList.map Char.toLower)

/-- Split a character sequence at every occurrence of `c`. -/
def splitOnChar (c : Char) : List Char → List (List Char)
  | [] => [[]]
  | x :: rest =>
      match splitOnChar c rest with
      | [] => [[x]]
      | h :: t => if x = c then [] :: h :: t else (x :: h) :: t

/-- JS `s.split(c)` for a one-character separator. -/
def splitString (c : Char) (s : String) : List String :=
  (splitOnChar c s.toList).map String.mk

/-! ## Stream and event types (agent.ts, phase/checkpoint variant) -/

/-- A tool input as seen by the loop: either the empty object `{}` that a
tool-use block starts with (and falls back to on parse failure), or the
successful parse of a raw JSON string. `JSON.parse` itself is external and
is modelled by a `parses : String → Bool` oracle. -/
inductive JsonVal where
  | emptyObj : JsonVal
  | parsed : String → JsonVal
deriving DecidableEq

/-- Low-level stream events from one model call (§4.1 StreamDecoder input). -/
inductive StreamEvent where
  | blockStartText : StreamEvent
  | blockStartToolUse : String → String → StreamEvent
  | textDelta : String → StreamEvent
  | inputJsonDelta : String → StreamEvent
  | blockStop : StreamEvent
  | messageStop : StreamEvent
deriving DecidableEq

/-- Finish reason surfaced by `finalMessage()` (`end_turn`, `tool_use`, other). -/
inductive StopReason where
  | endTurn : StopReason
  | toolUse : StopReason
  | otherStop : StopReason
deriving DecidableEq

/-- One model call's worth of oracle data: the stream events plus the
`stop_reason` and usage counters reported at `message_stop`. -/
structure StreamResp where
  events : List StreamEvent
  stopReason : StopReason
  usageIn : Nat
  usageOut : Nat
deriving DecidableEq

/-- A partially decoded tool-use block (`toolUseBlocks` entries with the
`_rawInput` accumulator patched on them). -/
structure ToolBlock where
  name : String
  id : String
  raw : Option String
  input : JsonVal
deriving DecidableEq

/-- An assembled content block of the assistant message. -/
inductive ContentBlock where
  | text : String → ContentBlock
  | toolUse : String → String → JsonVal → ContentBlock
deriving DecidableEq

/-- Block being assembled during streaming: a text block or a tool block. -/
inductive RawBlock where
  | text : String → RawBlock
  | tool : ToolBlock → RawBlock
deriving DecidableEq

/-- The events `runAgent` emits (the `AgentEvent` union in agent.ts). -/
inductive AgentEvent where
  | textChunk : String → AgentEvent
  | toolStart : String → AgentEvent
  | toolDone : String → String → AgentEvent
  | heartbeat : String → Nat → AgentEvent
  | needsContinue : String → AgentEvent
  | complete : Nat → Nat → AgentEvent
  | error : String → AgentEvent
deriving DecidableEq

/-- Message roles in conversation history (`MessageParam.role`). -/
inductive Role where
  | user : Role
  | assistant : Role
deriving DecidableEq

/-- One part of a mixed user message (image or text). -/
inductive HistPart where
  | image : String → String → HistPart
  | text : String → HistPart
deriving DecidableEq

/-- One `tool_result` block of a tool-result user turn. -/
structure ToolResultBlock where
  toolUseId : String
  content : String
deriving DecidableEq

/-- Message content in history: a plain string, mixed parts (images/text),
assistant content blocks, or a batch of tool results. -/
inductive MsgContent where
  | plain : String → MsgContent
  | parts : List HistPart → MsgContent
  | blocks : List ContentBlock → MsgContent
  | toolResults : List ToolResultBlock → MsgContent
deriving DecidableEq

/-- A conversation history entry (`Anthropic.Messages.MessageParam`). -/
structure MessageParam where
  role : Role
  content : MsgContent
deriving DecidableEq

/-- An image attached to a user message. -/
structure ImagePart where
  data : String
  mediaType : String
  name : String
deriving DecidableEq

/-- A tool handler outcome: a `content` array of text parts, or a thrown
error (the loop converts the latter to an error result text). -/
inductive ToolOutcome where
  | ok : List String → ToolOutcome
  | threw : String → ToolOutcome
deriving DecidableEq

/-! ## Constants from agent.ts -/

def TOKEN_WARN_THRESHOLD : Nat := 90000

def TOKEN_CUTOFF_THRESHOLD : Nat := 110000

def MAX_TURNS_PER_PHASE : Nat := 12

/-- The keys of `TOOL_HANDLERS`. -/
def knownTools : List String :=
  ["read_file", "search_code", "list_files", "get_context", "read_repo_file",
   "write_file", "run_command", "git_push",
   "save_checkpoint", "load_checkpoint", "clear_checkpoint"]

/-- `Math.round(c / 1000)` on non-negative integers. -/
def roundKilo (c : Nat) : Nat := (c + 500) / 1000

def warnText (c : Nat) : String :=
  "\n\n⚠️ *Context is getting large (" ++ toString (roundKilo c) ++
    "k tokens) — saving checkpoint and continuing in a fresh phase soon...*\n"

def cutoffSummary (c : Nat) : String :=
  "Context reached " ++ toString (roundKilo c) ++
    "k tokens. Checkpoint should be saved. Continuing in a fresh phase with clean context."

def phaseLimitSummary : String :=
  "Phase limit (" ++ toString MAX_TURNS_PER_PHASE ++
    " turns) reached. If a checkpoint was saved, the next phase will resume from it automatically."

/-! ## Stream decoding (the `toolUseBlocks` accumulation in runAgent) -/

/-- Does the block list contain a tool block? -/
def hasTool : List RawBlock → Bool
  | [] => false
  | RawBlock.tool _ :: _ => true
  | RawBlock.text _ :: rest => hasTool rest

/-- Apply `f` to the LAST tool block of the list, as
`toolUseBlocks[toolUseBlocks.length - 1]` does (text blocks are not in
that array, so deltas are routed to the last tool block even if a text
block follows it). -/
def updateLastTool (f : ToolBlock → ToolBlock) : List RawBlock → List RawBlock
  | [] => []
  | RawBlock.tool tb :: rest =>
      if hasTool rest then RawBlock.tool tb :: updateLastTool f rest
      else RawBlock.tool (f tb) :: rest
  | RawBlock.text s :: rest => RawBlock.text s :: updateLastTool f rest

/-- Append a text delta to the currently open (last) text block. -/
def appendTextDelta (s : String) : List RawBlock → List RawBlock
  | [] => []
  | [RawBlock.text t] => [RawBlock.text (t ++ s)]
  | [b] => [b]
  | b :: rest => b :: appendTextDelta s rest

/-- The `content_block_stop` patch: if the last tool block has a non-empty
`_rawInput`, parse it; on parse failure substitute the empty object. -/
def stopPatch (parses : String → Bool) (tb : ToolBlock) : ToolBlock :=
  match tb.raw with
  | none => tb
  | some r =>
      if r = "" then tb
      else { tb with input := if parses r then JsonVal.parsed r else JsonVal.emptyObj }

/-- One stream event's effect on the block-assembly state (everything the
`for await` loop does to `toolUseBlocks`/text, apart from emission). -/
def decodeStep (parses : String → Bool) (bs : List RawBlock) : StreamEvent → List RawBlock
  | StreamEvent.blockStartText => bs ++ [RawBlock.text ""]
  | StreamEvent.blockStartToolUse n i => bs ++ [RawBlock.tool ⟨n, i, none, JsonVal.emptyObj⟩]
  | StreamEvent.textDelta s => appendTextDelta s bs
  | StreamEvent.inputJsonDelta s =>
      updateLastTool (fun tb => { tb with raw := some (tb.raw.getD "" ++ s) }) bs
  | StreamEvent.blockStop => updateLastTool (stopPatch parses) bs
  | StreamEvent.messageStop => bs

/-- Decode a whole event sequence into assembled blocks. -/
def decodeBlocks (parses : String → Bool) (evs : List StreamEvent) : List RawBlock :=
  evs.foldl (decodeStep parses) []

/-- The events the loop forwards immediately while streaming (text chunks
and tool starts). -/
def streamEmit : StreamEvent → List AgentEvent
  | StreamEvent.blockStartToolUse n _ => [AgentEvent.toolStart n]
  | StreamEvent.textDelta s => [AgentEvent.textChunk s]
  | _ => []

/-- Final content block of an assembled raw block. -/
def RawBlock.toContent : RawBlock → ContentBlock
  | RawBlock.text s => ContentBlock.text s
  | RawBlock.tool tb => ContentBlock.toolUse tb.name tb.id tb.input

/-- The last tool block of the assembly, if any. -/
def lastTool (bs : List RawBlock) : Option ToolBlock :=
  match bs with
  | [] => none
  | RawBlock.tool tb :: rest => if hasTool rest then lastTool rest else some tb
  | RawBlock.text _ :: rest => lastTool rest

/-! ## Cancellation model

The abort signal is polled at fixed program points; polls are numbered in
order. `some n` means the signal is observed set from the n-th poll on
(monotone, as a real AbortSignal is); `none` means it is never set. -/

def isAborted (ab : Option Nat) (k : Nat) : Bool :=
  match ab with
  | none => false
  | some n => n ≤ k

/-! ## Tool execution (the tool_use branch of runAgent) -/

section AgentLoop

variable {W : Type}

/-- Accumulator for the sequential tool-execution loop. -/
structure ExecAcc (W : Type) where
  out : List AgentEvent
  results : List ToolResultBlock
  world : W
  polls : Nat

/-- Result text for one invocation: unknown tools short-circuit; known
tools run through the oracle; a throw is converted to an error text. -/
def execCall (execTool : W → String → JsonVal → W × ToolOutcome)
    (w : W) (name : String) (input : JsonVal) : W × String :=
  if name ∈ knownTools then
    match execTool w name input with
    | (w', ToolOutcome.ok c) => (w', c.headD "")
    | (w', ToolOutcome.threw m) => (w', "Error executing tool: " ++ m)
  else (w, "Unknown tool: " ++ name)

/-- Heartbeat events emitted while one tool call is in flight; the count
comes from a timing oracle (the 10 s interval timer is real time). -/
def heartbeats (name : String) (n : Nat) : List AgentEvent :=
  (List.range n).map (fun i => AgentEvent.heartbeat (name ++ " running...") ((i + 1) * 10))

/-- Sequentially execute the tool_use blocks of the assistant content, in
block order, checking the abort signal before each one (`break` stops the
batch). Emits heartbeats and a `tool_done` (with a 500-char preview) per
tool and accumulates the full result texts. -/
def execBlocks (execTool : W → String → JsonVal → W × ToolOutcome)
    (hb : W → String → JsonVal → Nat) (ab : Option Nat) :
    List ContentBlock → ExecAcc W → ExecAcc W
  | [], acc => acc
  | ContentBlock.text _ :: rest, acc => execBlocks execTool hb ab rest acc
  | ContentBlock.toolUse name tid input :: rest, acc =>
      if isAborted ab acc.polls then { acc with polls := acc.polls + 1 }
      else
        let hbn := if name ∈ knownTools then hb acc.world name input else 0
        let wr := execCall execTool acc.world name input
        execBlocks execTool hb ab rest
          { out := acc.out ++ heartbeats name hbn ++
              [AgentEvent.toolDone name (jsTake wr.2 500)],
            results := acc.results ++ [⟨tid, wr.2⟩],
            world := wr.1,
            polls := acc.polls + 1 }

/-- Specification-level sequential execution trace: final world plus the
(name, id, full result text) triples in block order. -/
def execTrace (execTool : W → String → JsonVal → W × ToolOutcome) (w : W) :
    List (String × String × JsonVal) → W × List (String × String × String)
  | [] => (w, [])
  | (n, i, j) :: rest =>
      let wr := execCall execTool w n j
      let tl := execTrace execTool wr.1 rest
      (tl.1, (n, i, wr.2) :: tl.2)

/-- The tool_use blocks of a content list, as (name, id, input) triples. -/
def toolCallsOf (content : List ContentBlock) : List (String × String × JsonVal) :=
  content.filterMap (fun b =>
    match b with
    | ContentBlock.toolUse n i j => some (n, i, j)
    | ContentBlock.text _ => none)

/-! ## The turn loop (runAgent, phase/checkpoint variant) -/

/-- State threaded through one model call's stream processing. -/
structure TurnState (W : Type) where
  out : List AgentEvent
  blocks : List RawBlock
  messages : List MessageParam
  cumulative : Nat
  world : W
  polls : Nat

/-- What processing one response's stream can end in: the function
returned, the stream was fully consumed (continue the while loop), or the
abort signal broke the stream loop. -/
inductive TurnResult (W : Type) where
  | returned : List AgentEvent → List MessageParam → TurnResult W
  | finished : TurnState W → TurnResult W
  | abortedMid : TurnState W → TurnResult W

/-- Process the remaining stream events of one model call, mirroring the
`for await (const event of stream)` body: poll the abort signal before
each event; forward text chunks / tool starts; accumulate and decode tool
input; at `message_stop` apply the token-budget checks and dispatch on the
stop reason (returning, or executing tools and continuing). -/
def processTurn (parses : String → Bool)
    (execTool : W → String → JsonVal → W × ToolOutcome)
    (hb : W → String → JsonVal → Nat) (ab : Option Nat) (resp : StreamResp) :
    List StreamEvent → TurnState W → TurnResult W
  | [], st => TurnResult.finished st
  | ev :: rest, st =>
      if isAborted ab st.polls then TurnResult.abortedMid { st with polls := st.polls + 1 }
      else
        let st := { st with polls := st.polls + 1 }
        match ev with
        | StreamEvent.messageStop =>
            let content := st.blocks.map RawBlock.toContent
            let cum := st.cumulative + resp.usageIn
            let out1 :=
              if TOKEN_WARN_THRESHOLD < cum ∧ cum ≤ TOKEN_CUTOFF_THRESHOLD then
                st.out ++ [AgentEvent.textChunk (warnText cum)]
              else st.out
            if TOKEN_CUTOFF_THRESHOLD < cum then
              TurnResult.returned (out1 ++ [AgentEvent.needsContinue (cutoffSummary cum)])
                (st.messages ++ [⟨Role.assistant, MsgContent.blocks content⟩])
            else
              match resp.stopReason with
              | StopReason.endTurn =>
                  TurnResult.returned
                    (out1 ++ [AgentEvent.complete resp.usageIn resp.usageOut])
                    (st.messages ++ [⟨Role.assistant, MsgContent.blocks content⟩])
              | StopReason.toolUse =>
                  let acc := execBlocks execTool hb ab content ⟨[], [], st.world, st.polls⟩
                  processTurn parses execTool hb ab resp rest
                    { out := out1 ++ acc.out,
                      blocks := st.blocks,
                      messages := st.messages ++
                        [⟨Role.assistant, MsgContent.blocks content⟩,
                         ⟨Role.user, MsgContent.toolResults acc.results⟩],
                      cumulative := cum,
                      world := acc.world,
                      polls := acc.polls }
              | StopReason.otherStop =>
                  TurnResult.returned
                    (out1 ++ [AgentEvent.complete resp.usageIn resp.usageOut])
                    (st.messages ++ [⟨Role.assistant, MsgContent.blocks content⟩])
        | e =>
            processTurn parses execTool hb ab resp rest
              { st with out := st.out ++ streamEmit e, blocks := decodeStep parses st.blocks e }

/-- State of the while loop between turns. -/
structure LoopState (W : Type) where
  out : List AgentEvent
  messages : List MessageParam
  turns : Nat
  cumulative : Nat
  world : W
  polls : Nat

/-- Falling out of the while loop: emit the phase-limit `needs_continue`
and return the history (this is the code path after `break` as well). -/
def finishPhase (out : List AgentEvent) (messages : List MessageParam) :
    List AgentEvent × List MessageParam :=
  (out ++ [AgentEvent.needsContinue phaseLimitSummary], messages)

/-- The `while (turns < MAX_TURNS_PER_PHASE)` loop. `none` means the
response oracle ran out (the real code would await another model call). -/
def runLoop (parses : String → Bool)
    (execTool : W → String → JsonVal → W × ToolOutcome)
    (hb : W → String → JsonVal → Nat) (ab : Option Nat) :
    List StreamResp → LoopState W → Option (List AgentEvent × List MessageParam)
  | resps, st =>
      if MAX_TURNS_PER_PHASE ≤ st.turns then some (finishPhase st.out st.messages)
      else if isAborted ab st.polls then some (finishPhase st.out st.messages)
      else
        match resps with
        | [] => none
        | resp :: rest =>
            match processTurn parses execTool hb ab resp resp.events
                ⟨st.out, [], st.messages, st.cumulative, st.world, st.polls + 1⟩ with
            | TurnResult.returned out hist => some (out, hist)
            | TurnResult.abortedMid ts => some (finishPhase ts.out ts.messages)
            | TurnResult.finished ts =>
                if isAborted ab ts.polls then some (finishPhase ts.out ts.messages)
                else
                  runLoop parses execTool hb ab rest
                    ⟨ts.out, ts.messages, st.turns + 1, ts.cumulative, ts.world, ts.polls + 1⟩

/-- Build the user-turn content: images first, then the text if non-blank;
a bare string when there are no images. -/
def buildUserContent (userMessage : String) (images : List ImagePart) : MsgContent :=
  if images.isEmpty then MsgContent.plain userMessage
  else
    MsgContent.parts
      (images.map (fun img => HistPart.image img.data img.mediaType) ++
        (if jsTrim userMessage = "" then [] else [HistPart.text userMessage]))

/-- The phase/checkpoint variant of `runAgent`: append the user turn, run
the turn loop against the response oracle, and return the emitted events
together with the updated history. -/
def runAgent (parses : String → Bool)
    (execTool : W → String → JsonVal → W × ToolOutcome)
    (hb : W → String → JsonVal → Nat) (ab : Option Nat)
    (userMessage : String) (images : List ImagePart)
    (conversationHistory : List MessageParam) (resps : List StreamResp) (w0 : W) :
    Option (List AgentEvent × List MessageParam) :=
  runLoop parses execTool hb ab resps
    ⟨[], conversationHistory ++ [⟨Role.user, buildUserContent userMessage images⟩], 0, 0, w0, 0⟩

end AgentLoop

/-! ## Event classification helpers -/

def AgentEvent.isNeedsContinue : AgentEvent → Bool
  | AgentEvent.needsContinue _ => true
  | _ => false

def AgentEvent.isComplete : AgentEvent → Bool
  | AgentEvent.complete _ _ => true
  | _ => false

def AgentEvent.isError : AgentEvent → Bool
  | AgentEvent.error _ => true
  | _ => false

def AgentEvent.isToolStart : AgentEvent → Bool
  | AgentEvent.toolStart _ => true
  | _ => false

def AgentEvent.isToolDone : AgentEvent → Bool
  | AgentEvent.toolDone _ _ => true
  | _ => false

/-- The tool name attached to a tool_start / tool_done event. -/
def AgentEvent.toolNameOf : AgentEvent → String
  | AgentEvent.toolStart n => n
  | AgentEvent.toolDone n _ => n
  | _ => ""

/-- The result payload of a tool_done event. -/
def AgentEvent.resultOf : AgentEvent → String
  | AgentEvent.toolDone _ r => r
  | _ => ""

def countEv (p : AgentEvent → Bool) (l : List AgentEvent) : Nat :=
  (l.filter p).length

/-- Sum of per-call input-token usage over a response list. -/
def usageSum (rs : List StreamResp) : Nat :=
  (rs.map (fun r => r.usageIn)).sum

/-- A well-formed model response: exactly one `message_stop`, at the end. -/
def WfResp (r : StreamResp) : Prop :=
  ∃ evs, r.events = evs ++ [StreamEvent.messageStop] ∧ StreamEvent.messageStop ∉ evs

/-! ## CheckpointStore (tools/checkpoint.ts)

The filesystem slot at `CHECKPOINT_PATH` is modelled explicitly: absent,
present with a parseable record, or present but unparseable (the JSON
(de)serialization of the flat record is the external `JSON` library). -/

/-- The on-disk checkpoint record. -/
structure CheckpointData where
  goal : String
  acceptanceCriteria : String
  filesTouched : List String
  completedSteps : List String
  nextStep : String
  lastResult : Option String
  savedAt : String
deriving DecidableEq

/-- The `save_checkpoint` handler's arguments (no `savedAt`: the handler
stamps it itself). -/
structure SaveArgs where
  goal : String
  acceptanceCriteria : String
  filesTouched : List String
  completedSteps : List String
  nextStep : String
  lastResult : Option String
deriving DecidableEq

/-- State of the single checkpoint file slot. -/
inductive CheckpointFile where
  | absent : CheckpointFile
  | corrupt : CheckpointFile
  | present : CheckpointData → CheckpointFile
deriving DecidableEq

/-- `save_checkpoint`: overwrite the slot with the args plus a fresh
timestamp; returns the new slot state and the handler's result text. -/
def saveCheckpoint (_file : CheckpointFile) (args : SaveArgs) (now : String) :
    CheckpointFile × String :=
  (CheckpointFile.present
     ⟨args.goal, args.acceptanceCriteria, args.filesTouched, args.completedSteps,
      args.nextStep, args.lastResult, now⟩,
   "✅ Checkpoint saved at CHECKPOINT_PATH\nNext step queued: \"" ++ args.nextStep ++ "\"")

/-- The record `load_checkpoint` obtains: `some` if the file exists and
parses, `none` (the "no checkpoint" sentinel, also used on parse failure)
otherwise. -/
def loadCheckpointData : CheckpointFile → Option CheckpointData
  | CheckpointFile.present d => some d
  | _ => none

def noCheckpointText : String :=
  "No checkpoint found — this is a fresh start. Proceed with the user's request."

/-- `load_checkpoint`'s result text (sentinel when absent, error-as-fresh
on parse failure, a rendered report when present). -/
def loadCheckpoint : CheckpointFile → String
  | CheckpointFile.absent => noCheckpointText
  | CheckpointFile.corrupt => "Checkpoint load error: parse failure. Treating as fresh start."
  | CheckpointFile.present cp =>
      String.intercalate "\n"
        (List.filter (fun s => s ≠ "")
          ["📋 CHECKPOINT FOUND (saved " ++ cp.savedAt ++ ")",
           "Goal: " ++ cp.goal,
           "Acceptance Criteria: " ++ cp.acceptanceCriteria,
           "Completed Steps: " ++
             (if cp.completedSteps.length > 0 then String.intercalate " → " cp.completedSteps
              else "none yet"),
           "Files Touched So Far: " ++
             (if cp.filesTouched.length > 0 then String.intercalate ", " cp.filesTouched
              else "none"),
           "▶ NEXT STEP TO EXECUTE: " ++ cp.nextStep,
           match cp.lastResult with
           | some lr => "Last Result: " ++ jsTake lr 300
           | none => ""])

/-- `clear_checkpoint`: delete the slot if present (no-op otherwise). -/
def clearCheckpoint : CheckpointFile → CheckpointFile × String
  | CheckpointFile.absent =>
      (CheckpointFile.absent, "No checkpoint to clear (already clean).")
  | _ => (CheckpointFile.absent, "✅ Checkpoint cleared — task fully complete.")

/-! ## Fixed-window rate limiter (telegram.ts `checkRateLimit`) -/

def TG_MESSAGE_LIMIT : Nat := 10

def TG_MESSAGE_WINDOW_MS : Nat := 60000

/-- The per-chat rate-limit window (messageCount + windowStart). -/
structure RLState where
  messageCount : Nat
  windowStart : Nat
deriving DecidableEq

/-- `checkRateLimit`: reset the window if it has elapsed, increment the
counter, accept iff the counter is within the ceiling. (`now - windowStart
> WINDOW` is written as `windowStart + WINDOW < now`, identical on
integers.) -/
def checkRateLimit (st : RLState) (now : Nat) : Bool × RLState :=
  let st1 := if st.windowStart + TG_MESSAGE_WINDOW_MS < now then RLState.mk 0 now else st
  let st2 := RLState.mk (st1.messageCount + 1) st1.windowStart
  (st2.messageCount ≤ TG_MESSAGE_LIMIT, st2)

/-- Run a sequence of attempts (at the given clock readings), collecting
each attempt's accept/reject answer. -/
def runAttempts (st : RLState) : List Nat → List Bool × RLState
  | [] => ([], st)
  | t :: ts =>
      let r := checkRateLimit st t
      let tl := runAttempts r.2 ts
      (r.1 :: tl.1, tl.2)

/-! ## TelegramMessageWriter (telegram.ts)

The buffer is a character sequence; `sendMessage`/`editMessageText` are
modelled as actions against a transport that allocates fresh message ids
(the happy path — transport failures are handled and swallowed in
`sendOrEdit` and do not change the pagination state machine). -/

def TELEGRAM_MAX_CHARS : Nat := 4096

structure WriterState where
  buffer : List Char
  messageId : Option Nat
  messagePageIndex : Nat
  nextId : Nat
deriving DecidableEq

/-- A transport call made by a flush. -/
inductive SendAction where
  | sendNew : Nat → List Char → SendAction
  | edit : Nat → List Char → SendAction
deriving DecidableEq

def SendAction.textOf : SendAction → List Char
  | SendAction.sendNew _ t => t
  | SendAction.edit _ t => t

def SendAction.isSendNew : SendAction → Bool
  | SendAction.sendNew _ _ => true
  | _ => false

namespace TelegramMessageWriter

/-- `sendOrEdit`: send a fresh message when no message id is held
(remembering the allocated id), otherwise edit the held message. -/
def sendOrEdit (st : WriterState) (text : List Char) : SendAction × WriterState :=
  match st.messageId with
  | none =>
      (SendAction.sendNew st.nextId text,
       { st with messageId := some st.nextId, nextId := st.nextId + 1 })
  | some m => (SendAction.edit m text, st)

/-- `flush`: send/edit the slice of the buffer belonging to the current
page; if the buffer has overflowed past this page's boundary, move to the
next page, drop the message id, and reschedule (the returned Bool). -/
def flush (st : WriterState) : List SendAction × WriterState × Bool :=
  if st.buffer.isEmpty then ([], st, false)
  else
    let pageStart := st.messagePageIndex * TELEGRAM_MAX_CHARS
    let currentPage := (st.buffer.drop pageStart).take TELEGRAM_MAX_CHARS
    if currentPage.isEmpty then ([], st, false)
    else
      let ar := sendOrEdit st currentPage
      if (st.messagePageIndex + 1) * TELEGRAM_MAX_CHARS < st.buffer.length then
        ([ar.1], { ar.2 with messagePageIndex := ar.2.messagePageIndex + 1, messageId := none },
         true)
      else ([ar.1], ar.2, false)

/-- Follow the reschedule chain: keep flushing while a flush reports that
it pushed into a new page. -/
def drainFlush : Nat → WriterState → List SendAction × WriterState
  | 0, st => ([], st)
  | fuel + 1, st =>
      let r := flush st
      if r.2.2 then
        let tl := drainFlush fuel r.2.1
        (r.1 ++ tl.1, tl.2)
      else (r.1, r.2.1)

/-- `appendText`: accumulate a text chunk. -/
def appendText (buffer : List Char) (chunk : String) : List Char :=
  buffer ++ chunk.toList

/-- The literal running placeholder appended at tool-start (without the
leading newline, which is what the tool-done pattern matches). -/
def runningMarker (name : String) : List Char :=
  ("`🔧 " ++ name ++ "...`").toList

/-- The done marker substituted at tool-done. -/
def doneMarker (name : String) : List Char :=
  ("`✅ " ++ name ++ "`").toList

/-- `appendToolStart`: append a newline plus the running placeholder. -/
def appendToolStart (buffer : List Char) (name : String) : List Char :=
  buffer ++ '\n' :: runningMarker name

/-- `s.replace(re, repl)` where `re` is an escaped literal pattern anchored
with `$`: scan left to right; the only position that can match is the one
where the pattern is a suffix ending at the end of the string. -/
def replaceEndAnchored (pat repl : List Char) : List Char → List Char
  | [] => if pat = [] then repl else []
  | c :: rest =>
      if c :: rest = pat then repl else c :: replaceEndAnchored pat repl rest

/-- `appendToolDone`: regex-replace the running placeholder (end-anchored,
name regex-escaped so it matches literally) by the done marker. -/
def appendToolDone (buffer : List Char) (name : String) : List Char :=
  replaceEndAnchored (runningMarker name) (doneMarker name) buffer

end TelegramMessageWriter

/-- Number of 4096-char pages the buffer spans. -/
def numPages (b : List Char) : Nat :=
  (b.length + TELEGRAM_MAX_CHARS - 1) / TELEGRAM_MAX_CHARS

/-- The consecutive disjoint page slices of the buffer. -/
def pageSlices (b : List Char) : List (List Char) :=
  (List.range (numPages b)).map (fun i => (b.drop (i * TELEGRAM_MAX_CHARS)).take TELEGRAM_MAX_CHARS)

/-! ## run_command tool handler (tools/runCommand.ts) -/

/-- `ALLOWED_PREFIXES`. -/
def allowedCmdList : List String :=
  ["npm run build", "npm run lint", "npm run test", "npm run dev",
   "npm install", "npm ci",
   "npx tsc", "npx prisma generate", "npx prisma migrate", "npx prisma db push",
   "npx prisma validate", "npx prisma format",
   "git status", "git diff", "git log", "git show",
   "ls", "cat", "find"]

/-- The trimmed command starts with one of the allow-listed fixed strings. -/
def cmdAllowed (trimmed : String) : Bool :=
  allowedCmdList.any (fun p => strStartsWith trimmed p)

/-- One `execSync` call record (command + working directory). -/
structure ShellCall where
  command : String
  cwd : String
deriving DecidableEq

/-- Outcome of an `execSync` call, from the shell oracle. -/
inductive ShellResult where
  | ok : String → ShellResult
  | err : Option String → Option String → Option String → ShellResult
deriving DecidableEq

/-- `[stdout, stderr, message].filter(Boolean).join('\n')`. -/
def joinPresent (parts : List (Option String)) : String :=
  String.intercalate "\n" ((parts.filterMap id).filter (fun s => s ≠ ""))

def notAllowedText (trimmed : String) : String :=
  "Error: Command not allowed: \"" ++ trimmed ++ "\"\nAllowed prefixes:\n" ++
    String.intercalate "\n" (allowedCmdList.map (fun p => "  - " ++ p))

/-- The `run_command` handler: allow-list the trimmed command, resolve and
bound the working directory, then (and only then) call the shell. Returns
the result text and the list of shell calls performed. `joinNorm`
abstracts `path.join(REPO_DIR, path.normalize(cwd))`. -/
def runCommandHandler (repoDir : String) (joinNorm : String → String → String)
    (shellExec : String → String → ShellResult)
    (command : String) (cwd : Option String) : String × List ShellCall :=
  let trimmed := jsTrim command
  if cmdAllowed trimmed = false then (notAllowedText trimmed, [])
  else
    let workDir := match cwd with
      | some c => joinNorm repoDir c
      | none => repoDir
    if strStartsWith workDir repoDir = false then ("Error: cwd outside repo directory", [])
    else
      match shellExec trimmed workDir with
      | ShellResult.ok output =>
          ((if jsTrim output = "" then "(command completed with no output)" else jsTrim output),
           [⟨trimmed, workDir⟩])
      | ShellResult.err so se m =>
          ("Command failed:\n" ++ joinPresent [so, se, m], [⟨trimmed, workDir⟩])

/-! ## write_file tool handler (tools/writeFile.ts)

`path.normalize`, `path.join` and `path.extname` are modelled with Node's
posix semantics on `/`-separated paths. -/

/-- Segment resolution for `path.normalize`: drop empty and `.` segments;
`..` pops a previous segment, accumulates at the front of a relative path,
and is dropped at the root of an absolute one. -/
def normSegs (absRoot : Bool) (acc : List String) : List String → List String
  | [] => acc.reverse
  | seg :: rest =>
      if seg = "" ∨ seg = "." then normSegs absRoot acc rest
      else if seg = ".." then
        match acc with
        | top :: accRest =>
            if top = ".." then normSegs absRoot (".." :: top :: accRest) rest
            else normSegs absRoot accRest rest
        | [] => if absRoot then normSegs absRoot [] rest else normSegs absRoot [".."] rest
      else normSegs absRoot (seg :: acc) rest

/-- `path.normalize` (posix). -/
def pathNormalize (p : String) : String :=
  let absRoot := strStartsWith p "/"
  let segs := normSegs absRoot [] (splitString '/' p)
  let body := String.intercalate "/" segs
  if absRoot then (if body = "" then "/" else "/" ++ body)
  else (if body = "" then "." else body)

/-- The regex `^(\.\.(\/|\\|$))+` — strip repeated leading `..`
segments. -/
def stripDotSegs : List Char → List Char
  | '.' :: '.' :: '/' :: rest => stripDotSegs rest
  | '.' :: '.' :: '\\' :: rest => stripDotSegs rest
  | ['.', '.'] => []
  | l => l

/-- `path.normalize(p).replace(/^(\.\.(\/|\\|$))+/, '')`. -/
def sanitizePath (p : String) : String :=
  String.mk (stripDotSegs (pathNormalize p).toList)

/-- `path.join` = normalize of the separator-joined concatenation. -/
def pathJoin (a b : String) : String :=
  pathNormalize (a ++ "/" ++ b)

/-- The basename (substring after the last `/`). -/
def lastSegment (p : String) : String :=
  (splitString '/' p).getLastD ""

/-- `path.extname` (posix): the suffix from the last dot of the basename,
empty when there is no dot, when the only dot leads the basename, or for
`..`. -/
def extnameOf (p : String) : String :=
  let base := lastSegment p
  if base = ".." then ""
  else
    let cs := base.toList
    match cs.reverse.indexOf? '.' with
    | none => ""
    | some k =>
        let pos := cs.length - 1 - k
        if pos = 0 then "" else String.mk (cs.drop pos)

/-- `ALLOWED_EXTENSIONS`. -/
def allowedExtList : List String :=
  [".ts", ".tsx", ".js", ".jsx",
   ".json", ".md", ".css", ".html",
   ".env.example", ".prisma", ".sql",
   ".yaml", ".yml", ".toml"]

/-- `REPO_DIR` (default when no env override is present). -/
def writeRepoDir : String := "/tmp/turbo-claude"

/-- `sanitized.replace(/\\\\/g, '/')` — backslashes replaced by slashes. -/
def relPathOf (sanitized : String) : String :=
  String.mk (sanitized.toList.map (fun c => if c = '\\' then '/' else c))

/-- The directory restriction: turbo-backend/, turbo-frontend/, or a `.md`
file. -/
def writePathAllowed (relPath : String) : Bool :=
  strStartsWith relPath "turbo-backend/" || strStartsWith relPath "turbo-frontend/" ||
    strEndsWith relPath ".md"

/-- A performed filesystem write (path + content). -/
structure WriteCall where
  fullPath : String
  content : String
deriving DecidableEq

/-- The `write_file` handler: sanitize the path, require it to resolve
inside the repo, restrict to turbo-backend/, turbo-frontend/ or `.md`
files, reject disallowed extensions, then write. Returns the result text
and the write performed (if any). -/
def writeFileHandler (p content : String) : String × Option WriteCall :=
  let sanitized := sanitizePath p
  let fullPath := pathJoin writeRepoDir sanitized
  if strStartsWith fullPath writeRepoDir = false then
    ("Error: Access denied — path outside repo directory", none)
  else
    let relPath := relPathOf sanitized
    if writePathAllowed relPath = false then
      ("Error: Can only write to turbo-backend/, turbo-frontend/, or .md files at root.", none)
    else
      let ext := jsToLower (extnameOf sanitized)
      if ext ≠ "" ∧ allowedExtList.contains ext = false then
        ("Error: File extension \"" ++ ext ++ "\" not allowed. Allowed: " ++
           String.intercalate ", " allowedExtList, none)
      else
        ("✅ Written: " ++ sanitized ++ " (" ++ toString (splitOnChar '\n' content.toList).length ++
           " lines)", some ⟨fullPath, content⟩)

/-! ## Proof-support definitions (pure views of the loop's state evolution) -/

/-- The events forwarded while streaming a list of (non-stop) events. -/
def streamEmits (evs : List StreamEvent) : List AgentEvent :=
  evs.flatMap streamEmit

section LoopViews

variable {W : Type}

/-- The effect of one non-`message_stop` stream event on the turn state. -/
def turnStep (parses : String → Bool) (st : TurnState W) (e : StreamEvent) : TurnState W :=
  { st with polls := st.polls + 1, out := st.out ++ streamEmit e,
            blocks := decodeStep parses st.blocks e }

/-- Folding the non-stop prefix of a stream through the turn state. -/
def streamFold (parses : String → Bool) (st : TurnState W) (evs : List StreamEvent) : TurnState W :=
  evs.foldl (turnStep parses) st

end LoopViews

/-- A world that logs every oracle call; the handler's result text is an
arbitrary function of the log so far (so result texts may depend on the
side effects of earlier calls in the same batch). -/
def loggerExec (f : List (String × JsonVal) → String → JsonVal → String)
    (w : List (String × JsonVal)) (n : String) (j : JsonVal) :
    List (String × JsonVal) × ToolOutcome :=
  (w ++ [(n, j)], ToolOutcome.ok [f w n j])

/-- Names of the tool blocks of an assembly, in order. -/
def rawToolNames (bs : List RawBlock) : List String :=
  bs.filterMap (fun b =>
    match b with
    | RawBlock.tool tb => some tb.name
    | RawBlock.text _ => none)

/-- The tool_start events a stream produces, in stream order. -/
def streamToolStarts (evs : List StreamEvent) : List AgentEvent :=
  evs.filterMap (fun e =>
    match e with
    | StreamEvent.blockStartToolUse n _ => some (AgentEvent.toolStart n)
    | _ => none)


section ExecViews

variable {W : Type}

/-- The events the tool-execution loop emits for a call list (heartbeats
for known tools, then the tool_done with its 500-char preview), threading
the world exactly as `execBlocks` does. -/
def execOut (execTool : W → String → JsonVal → W × ToolOutcome)
    (hb : W → String → JsonVal → Nat) (w : W) :
    List (String × String × JsonVal) → List AgentEvent
  | [] => []
  | (n, _, j) :: rest =>
      (if n ∈ knownTools then heartbeats n (hb w n j) else []) ++
        [AgentEvent.toolDone n (jsTake (execCall execTool w n j).2 500)] ++
        execOut execTool hb (execCall execTool w n j).1 rest

end ExecViews

/-- The token-budget warning appended at message_stop when the cumulative
total is in the warning band. -/
def warnAppend (out : List AgentEvent) (cum : Nat) : List AgentEvent :=
  if TOKEN_WARN_THRESHOLD < cum ∧ cum ≤ TOKEN_CUTOFF_THRESHOLD then
    out ++ [AgentEvent.textChunk (warnText cum)]
  else out

/-! ## Action-level linearization of the tool_use branch -/

/-- One primitive effect of the tool_use branch, in program order: a
handler invocation (`await handler(block.input)`), an `onEvent` emission,
or a `messages.push`. -/
inductive TurnAction where
  | callTool : String → JsonVal → TurnAction
  | emit : AgentEvent → TurnAction
  | pushHistory : MessageParam → TurnAction
deriving DecidableEq

def TurnAction.isPush : TurnAction → Bool
  | TurnAction.pushHistory _ => true
  | _ => false

def TurnAction.callOf : TurnAction → Option (String × JsonVal)
  | TurnAction.callTool n j => some (n, j)
  | _ => none

def TurnAction.emitOf : TurnAction → Option AgentEvent
  | TurnAction.emit e => some e
  | _ => none

section BatchActions

variable {W : Type}

/-- The `for (const block of assistantContent)` loop, linearized: per
tool_use block the handler runs in the current world, heartbeats (cleared
when the handler returns) and the tool_done preview are emitted, and the
full result text is appended to the local `toolResults` array; nothing is
pushed onto the conversation history inside the loop. -/
def batchSteps (execTool : W → String → JsonVal → W × ToolOutcome)
    (hb : W → String → JsonVal → Nat) (w : W) :
    List (String × String × JsonVal) → List TurnAction × W × List ToolResultBlock
  | [] => ([], w, [])
  | (n, i, j) :: rest =>
      let hbn := if n ∈ knownTools then hb w n j else 0
      let wr := execCall execTool w n j
      let tl := batchSteps execTool hb wr.1 rest
      (TurnAction.callTool n j ::
         ((heartbeats n hbn).map TurnAction.emit ++
          [TurnAction.emit (AgentEvent.toolDone n (jsTake wr.2 500))] ++ tl.1),
       tl.2.1, ⟨i, wr.2⟩ :: tl.2.2)

/-- The whole (uncancelled) tool_use branch as an action trace: push the
assistant turn, run the for-loop over the blocks, then push the single
combined tool-results user turn. -/
def batchActions (execTool : W → String → JsonVal → W × ToolOutcome)
    (hb : W → String → JsonVal → Nat) (w : W) (content : List ContentBlock) :
    List TurnAction :=
  TurnAction.pushHistory ⟨Role.assistant, MsgContent.blocks content⟩ ::
    (batchSteps execTool hb w (toolCallsOf content)).1 ++
    [TurnAction.pushHistory ⟨Role.user,
      MsgContent.toolResults (batchSteps execTool hb w (toolCallsOf content)).2.2⟩]

end BatchActions

/-- Names of the tool_use block starts of a stream, in stream order. -/
def startNames (evs : List StreamEvent) : List String :=
  evs.filterMap (fun e =>
    match e with
    | StreamEvent.blockStartToolUse n _ => some n
    | _ => none)

/-! # Theorems -/

/-! ## C5 — checkpoint round-trip -/

/-- C5: `saveCheckpoint(r)` followed by `loadCheckpoint()` yields a record
equal to `r` except for the freshly set `savedAt` timestamp, and
`clearCheckpoint()` followed by `loadCheckpoint()` yields the
"no checkpoint" sentinel (fresh start), whatever the prior slot state. -/
theorem checkpoint_roundtrip :
    (∀ (file : CheckpointFile) (args : SaveArgs) (now : String),
        loadCheckpointData (saveCheckpoint file args now).1 =
          some ⟨args.goal, args.acceptanceCriteria, args.filesTouched, args.completedSteps,
                args.nextStep, args.lastResult, now⟩) ∧
    (∀ file : CheckpointFile,
        loadCheckpointData (clearCheckpoint file).1 = none ∧
        loadCheckpoint (clearCheckpoint file).1 = noCheckpointText) := by
  refine ⟨fun file args now => rfl, fun file => ?_⟩
  cases file <;> exact ⟨rfl, rfl⟩

/-! ## C8 — fixed-window rate limiter -/

/-- Within one window the limiter just counts: the i-th attempt is
accepted iff the counter stays within the ceiling, and the window start is
untouched. -/
theorem runAttempts_in_window :
    ∀ (ts : List Nat) (c w0 : Nat), (∀ t ∈ ts, t ≤ w0 + TG_MESSAGE_WINDOW_MS) →
      (runAttempts ⟨c, w0⟩ ts).1 =
        (List.range ts.length).map (fun i => decide (c + i + 1 ≤ TG_MESSAGE_LIMIT)) ∧
      (runAttempts ⟨c, w0⟩ ts).2 = ⟨c + ts.length, w0⟩ := by
  intro ts
  induction ts with
  | nil => intro c w0 _; exact ⟨rfl, rfl⟩
  | cons t ts ih =>
      intro c w0 h
      have ht : t ≤ w0 + TG_MESSAGE_WINDOW_MS := h t (List.mem_cons_self t ts)
      have hcheck : checkRateLimit ⟨c, w0⟩ t =
          (decide (c + 1 ≤ TG_MESSAGE_LIMIT), ⟨c + 1, w0⟩) := by
        simp only [checkRateLimit]
        rw [if_neg (by omega)]
      have htl : ∀ t' ∈ ts, t' ≤ w0 + TG_MESSAGE_WINDOW_MS :=
        fun t' ht' => h t' (List.mem_cons_of_mem t ht')
      have ih1 := (ih (c + 1) w0 htl).1
      have ih2 := (ih (c + 1) w0 htl).2
      constructor
      · simp only [runAttempts, hcheck, ih1]
        rw [List.length_cons, List.range_succ_eq_map]
        simp only [List.map_cons, List.map_map]
        congr 1
        apply List.map_congr_left
        intro a _
        simp only [Function.comp_apply, decide_eq_decide, Nat.succ_eq_add_one]
        omega
      · simp only [runAttempts, hcheck, ih2]
        simp only [List.length_cons]
        congr 1
        omega

/-- C8: with ceiling 10 per 60000 ms window, the first 10 attempts inside
one window are accepted and the 11th is rejected; an attempt after the
window has elapsed is accepted and resets both the counter and the window
start. -/
theorem rateLimiter_fixed_window :
    (∀ (w0 : Nat) (ts : List Nat), ts.length = TG_MESSAGE_LIMIT + 1 →
        (∀ t ∈ ts, t ≤ w0 + TG_MESSAGE_WINDOW_MS) →
        (runAttempts ⟨0, w0⟩ ts).1 = List.replicate TG_MESSAGE_LIMIT true ++ [false]) ∧
    (∀ (st : RLState) (now : Nat), st.windowStart + TG_MESSAGE_WINDOW_MS < now →
        checkRateLimit st now = (true, ⟨1, now⟩)) := by
  constructor
  · intro w0 ts hlen h
    rw [(runAttempts_in_window ts 0 w0 h).1, hlen]
    decide
  · intro st now h
    simp only [checkRateLimit]
    rw [if_pos h]
    rfl

/-- Witness for C8 at concrete inputs. -/
theorem rateLimiter_fixed_window_witness :
    (runAttempts ⟨0, 0⟩ (List.replicate 11 0)).1 =
        List.replicate TG_MESSAGE_LIMIT true ++ [false] ∧
    checkRateLimit ⟨3, 0⟩ 60001 = (true, ⟨1, 60001⟩) :=
  ⟨rateLimiter_fixed_window.1 0 (List.replicate 11 0) (by decide) (by decide),
   rateLimiter_fixed_window.2 ⟨3, 0⟩ 60001 (by decide)⟩

/-! ## C9 — run_command allow-list -/

/-- C9: the shell is invoked only when the trimmed command starts with one
of the fixed allow-listed strings; any other command yields the
"Command not allowed" result text and performs no shell call. -/
theorem runCommand_allowlist :
    (∀ (repoDir : String) (joinNorm : String → String → String)
        (shellExec : String → String → ShellResult) (command : String) (cwd : Option String),
        cmdAllowed (jsTrim command) = false →
        runCommandHandler repoDir joinNorm shellExec command cwd =
          (notAllowedText (jsTrim command), [])) ∧
    (∀ (repoDir : String) (joinNorm : String → String → String)
        (shellExec : String → String → ShellResult) (command : String) (cwd : Option String),
        (runCommandHandler repoDir joinNorm shellExec command cwd).2 ≠ [] →
        cmdAllowed (jsTrim command) = true) := by
  constructor
  · intro repoDir joinNorm shellExec command cwd h
    simp [runCommandHandler, h]
  · intro repoDir joinNorm shellExec command cwd h
    cases hca : cmdAllowed (jsTrim command) with
    | false =>
        exfalso
        apply h
        simp [runCommandHandler, hca]
    | true => rfl

/-- Witness for C9: a denied command produces no shell call. -/
theorem runCommand_allowlist_witness :
    runCommandHandler "/repo" (fun a _ => a) (fun _ _ => ShellResult.ok "") "rm -rf /" none =
      (notAllowedText (jsTrim "rm -rf /"), []) :=
  runCommand_allowlist.1 "/repo" (fun a _ => a) (fun _ _ => ShellResult.ok "") "rm -rf /" none
    (by decide)

/-! ## C10 — write_file validation -/

/-- A prefix of `a` is a prefix of `a ++ b`. -/
theorem strStartsWith_append_left (pre a b : String) (h : strStartsWith a pre = true) :
    strStartsWith (a ++ b) pre = true := by
  simp only [strStartsWith, List.isPrefixOf_iff_prefix, String.toList, String.data_append] at h ⊢
  exact h.trans (List.prefix_append a.data b.data)

/-- Counterexample to C10 as stated: an extension-less file under
turbo-backend/ is written although its (empty) extension is not in the
allow-list — `if (ext && ...)` skips the check when `extname` is empty. -/
theorem writeFile_extensionless_written :
    (writeFileHandler "turbo-backend/Dockerfile" "FROM node").2 =
      some ⟨"/tmp/turbo-claude/turbo-backend/Dockerfile", "FROM node"⟩ ∧
    allowedExtList.contains (jsToLower (extnameOf (sanitizePath "turbo-backend/Dockerfile"))) =
      false :=
  ⟨by decide, by decide⟩

/-- C10 (amended): a file is written iff the sanitized path resolves
inside the repo, lies under turbo-backend/ or turbo-frontend/ or ends in
.md, and its lower-cased extension is either empty (no extension) or
allow-listed; otherwise the handler returns an error text and performs no
write; and any write goes to the joined repo path with the given
content. -/
theorem writeFile_validation (p content : String) :
    ((writeFileHandler p content).2.isSome = true ↔
      (strStartsWith (pathJoin writeRepoDir (sanitizePath p)) writeRepoDir = true ∧
        writePathAllowed (relPathOf (sanitizePath p)) = true ∧
        (jsToLower (extnameOf (sanitizePath p)) = "" ∨
          allowedExtList.contains (jsToLower (extnameOf (sanitizePath p))) = true))) ∧
    ((writeFileHandler p content).2 = none →
        strStartsWith (writeFileHandler p content).1 "Error" = true) ∧
    (∀ w, (writeFileHandler p content).2 = some w →
        w = ⟨pathJoin writeRepoDir (sanitizePath p), content⟩) := by
  simp only [writeFileHandler]
  split_ifs with h1 h2 h3
  · refine ⟨by simp [h1], fun _ => by decide, by simp⟩
  · refine ⟨by simp [h2], fun _ => by decide, by simp⟩
  · refine ⟨⟨fun hfalse => by simp at hfalse, ?_⟩, fun _ => ?_, by simp⟩
    · rintro ⟨-, -, he | hc⟩
      · exact absurd he h3.1
      · rw [h3.2] at hc
        cases hc
    exact strStartsWith_append_left "Error"
      ("Error: File extension \"" ++ jsToLower (extnameOf (sanitizePath p)) ++
        "\" not allowed. Allowed: ")
      (String.intercalate ", " allowedExtList)
      (strStartsWith_append_left "Error" "Error: File extension \""
        (jsToLower (extnameOf (sanitizePath p))) (by decide))
  · simp only [Bool.not_eq_false] at h1 h2
    refine ⟨?_, by simp, ?_⟩
    · constructor
      · intro _
        refine ⟨h1, h2, ?_⟩
        by_cases he : jsToLower (extnameOf (sanitizePath p)) = ""
        · exact Or.inl he
        · refine Or.inr ?_
          by_cases hc : allowedExtList.contains (jsToLower (extnameOf (sanitizePath p))) = true
          · exact hc
          · exact absurd ⟨he, by simpa using hc⟩ h3
      · intro _
        simp
    · intro w hw
      exact (Option.some.inj hw).symm

/-- Witness for C10 at a concrete rejected input (wrong extension). -/
theorem writeFile_validation_witness :
    (writeFileHandler "turbo-backend/a.py" "x").2 = none ∧
    strStartsWith (writeFileHandler "turbo-backend/a.py" "x").1 "Error" = true :=
  ⟨by decide, (writeFile_validation "turbo-backend/a.py" "x").2.1 (by decide)⟩

/-! ## C7 — Telegram tool-marker replacement -/

/-- The end-anchored literal replace: it substitutes exactly when the
pattern is a suffix of the string, and is the identity otherwise. -/
theorem replaceEndAnchored_spec (pat repl : List Char) (hp : pat ≠ []) :
    ∀ s, TelegramMessageWriter.replaceEndAnchored pat repl s =
      if pat <:+ s then s.take (s.length - pat.length) ++ repl else s := by
  intro s
  induction s with
  | nil =>
      rw [TelegramMessageWriter.replaceEndAnchored, if_neg hp, if_neg]
      simp [List.suffix_nil, hp]
  | cons c rest ih =>
      rw [TelegramMessageWriter.replaceEndAnchored]
      by_cases hc : c :: rest = pat
      · rw [if_pos hc, if_pos (hc ▸ List.suffix_refl (c :: rest))]
        rw [← hc]
        simp
      · rw [if_neg hc, ih]
        by_cases hs : pat <:+ rest
        · rw [if_pos hs, if_pos ((List.suffix_cons_iff).2 (Or.inr hs))]
          have hlen : pat.length ≤ rest.length := hs.length_le
          rw [List.length_cons]
          have : rest.length + 1 - pat.length = (rest.length - pat.length) + 1 := by omega
          rw [this, List.take_succ_cons, List.cons_append]
        · have hns : ¬ pat <:+ c :: rest := by
            rw [List.suffix_cons_iff]
            push_neg
            exact ⟨fun h => hc h.symm, hs⟩
          rw [if_neg hs, if_neg hns]

/-- The running placeholder always ends in a backtick, so it is never
empty. -/
theorem runningMarker_ne_nil (name : String) :
    TelegramMessageWriter.runningMarker name ≠ [] := by
  simp only [TelegramMessageWriter.runningMarker, String.toList, String.data_append]
  simp

/-- Counterexample to C7 as stated: after two tool starts (`ls` then
`cat`), the `ls` placeholder occurs in the buffer, yet tool-done for `ls`
leaves the buffer unchanged — the replacement pattern is anchored at the
buffer's end, so a placeholder found mid-buffer is not substituted. -/
theorem appendToolDone_found_not_replaced :
    TelegramMessageWriter.runningMarker "ls" <:+:
      TelegramMessageWriter.appendToolStart
        (TelegramMessageWriter.appendToolStart [] "ls") "cat" ∧
    TelegramMessageWriter.appendToolDone
        (TelegramMessageWriter.appendToolStart
          (TelegramMessageWriter.appendToolStart [] "ls") "cat") "ls" =
      TelegramMessageWriter.appendToolStart
        (TelegramMessageWriter.appendToolStart [] "ls") "cat" :=
  ⟨by decide, by decide⟩

/-- C7 (amended): tool-done replaces the placeholder by the done marker
exactly when the placeholder's literal rendering is a suffix of the buffer
(the substitution is end-anchored); in every other case — including a
placeholder present earlier in the buffer — the call leaves the buffer
unchanged and raises no error. -/
theorem appendToolDone_suffix_semantics (buffer : List Char) (name : String) :
    TelegramMessageWriter.appendToolDone buffer name =
      if TelegramMessageWriter.runningMarker name <:+ buffer then
        buffer.take (buffer.length - (TelegramMessageWriter.runningMarker name).length) ++
          TelegramMessageWriter.doneMarker name
      else buffer :=
  replaceEndAnchored_spec (TelegramMessageWriter.runningMarker name)
    (TelegramMessageWriter.doneMarker name) (runningMarker_ne_nil name) buffer

/-! ## C6 — Telegram writer pagination -/

/-- The page count covers the buffer: `len ≤ ceil(len / 4096) * 4096`. -/
theorem le_numPages_mul (len : Nat) :
    len ≤ ((len + TELEGRAM_MAX_CHARS - 1) / TELEGRAM_MAX_CHARS) * TELEGRAM_MAX_CHARS := by
  simp only [TELEGRAM_MAX_CHARS]
  by_contra hlt
  push_neg at hlt
  have h1 : (len + 4096 - 1) / 4096 + 1 ≤ (len + 4096 - 1) / 4096 := by
    rw [Nat.le_div_iff_mul_le (by norm_num)]
    omega
  omega

/-- A page index whose page start lies inside the buffer is below the page
count. -/
theorem lt_numPages_of_lt (len p : Nat) (h : p * TELEGRAM_MAX_CHARS < len) :
    p < (len + TELEGRAM_MAX_CHARS - 1) / TELEGRAM_MAX_CHARS := by
  simp only [TELEGRAM_MAX_CHARS] at *
  have : p + 1 ≤ (len + 4096 - 1) / 4096 := by
    rw [Nat.le_div_iff_mul_le (by norm_num)]
    omega
  omega

/-- When the buffer ends inside page `p`, the page count is exactly
`p + 1`. -/
theorem numPages_last (len p : Nat) (h1 : p * TELEGRAM_MAX_CHARS < len)
    (h2 : len ≤ (p + 1) * TELEGRAM_MAX_CHARS) :
    (len + TELEGRAM_MAX_CHARS - 1) / TELEGRAM_MAX_CHARS = p + 1 := by
  have hlo := lt_numPages_of_lt len p h1
  simp only [TELEGRAM_MAX_CHARS] at *
  have hhi : (len + 4096 - 1) / 4096 < p + 2 := by
    rw [Nat.div_lt_iff_lt_mul (by norm_num)]
    omega
  omega

/-- Concatenating the page slices reproduces the buffer. -/
theorem join_page_slices :
    ∀ (n : Nat) (b : List Char), b.length ≤ n * TELEGRAM_MAX_CHARS →
      ((List.range n).map
          (fun i => (b.drop (i * TELEGRAM_MAX_CHARS)).take TELEGRAM_MAX_CHARS)).flatten = b := by
  intro n
  induction n with
  | zero =>
      intro b h
      have hb : b = [] := List.eq_nil_of_length_eq_zero (by omega)
      simp [hb]
  | succ n ih =>
      intro b h
      rw [List.range_succ_eq_map, List.map_cons, List.map_map, List.flatten_cons]
      have htail : (List.range n).map
          ((fun i => (b.drop (i * TELEGRAM_MAX_CHARS)).take TELEGRAM_MAX_CHARS) ∘ Nat.succ) =
          (List.range n).map
            (fun i => ((b.drop TELEGRAM_MAX_CHARS).drop (i * TELEGRAM_MAX_CHARS)).take
              TELEGRAM_MAX_CHARS) := by
        apply List.map_congr_left
        intro i _
        simp only [Function.comp_apply, Nat.succ_eq_add_one]
        rw [List.drop_drop]
        congr 1
        ring_nf
      have hlen : (b.drop TELEGRAM_MAX_CHARS).length ≤ n * TELEGRAM_MAX_CHARS := by
        rw [List.length_drop]
        have hx : (n + 1) * TELEGRAM_MAX_CHARS = n * TELEGRAM_MAX_CHARS + TELEGRAM_MAX_CHARS := by
          ring
        omega
      rw [htail, ih (b.drop TELEGRAM_MAX_CHARS) hlen]
      simp [List.take_append_drop]

/-- One flush from a fresh-message state with content remaining on the
current page: send the page slice as a new message; paginate iff the
buffer extends past this page. -/
theorem flush_fresh (b : List Char) (p nid : Nat)
    (h1 : p * TELEGRAM_MAX_CHARS < b.length) :
    TelegramMessageWriter.flush ⟨b, none, p, nid⟩ =
      if (p + 1) * TELEGRAM_MAX_CHARS < b.length then
        ([SendAction.sendNew nid ((b.drop (p * TELEGRAM_MAX_CHARS)).take TELEGRAM_MAX_CHARS)],
         ⟨b, none, p + 1, nid + 1⟩, true)
      else
        ([SendAction.sendNew nid ((b.drop (p * TELEGRAM_MAX_CHARS)).take TELEGRAM_MAX_CHARS)],
         ⟨b, some nid, p, nid + 1⟩, false) := by
  have hbne : ¬ b.isEmpty = true := by
    rw [List.isEmpty_iff]
    intro hnil
    subst hnil
    simp at h1
  have hpage : ¬ ((b.drop (p * TELEGRAM_MAX_CHARS)).take TELEGRAM_MAX_CHARS).isEmpty = true := by
    rw [List.isEmpty_iff]
    intro hcontra
    have hlen := congrArg List.length hcontra
    rw [List.length_take, List.length_drop] at hlen
    simp only [List.length_nil] at hlen
    simp only [TELEGRAM_MAX_CHARS] at hlen h1
    omega
  rw [TelegramMessageWriter.flush]
  simp only [hbne, if_false, hpage, TelegramMessageWriter.sendOrEdit]
  rfl

/-- Draining the reschedule chain from a fresh-message state sends every
remaining page, in order, each as a new message, and ends on the last
page. -/
theorem drainFlush_run :
    ∀ (fuel p nid : Nat) (b : List Char),
      p * TELEGRAM_MAX_CHARS < b.length →
      b.length ≤ (p + fuel) * TELEGRAM_MAX_CHARS →
      TelegramMessageWriter.drainFlush fuel ⟨b, none, p, nid⟩ =
        ((List.range (numPages b - p)).map
            (fun i => SendAction.sendNew (nid + i)
              ((b.drop ((p + i) * TELEGRAM_MAX_CHARS)).take TELEGRAM_MAX_CHARS)),
         ⟨b, some (nid + (numPages b - p - 1)), numPages b - 1,
          nid + (numPages b - p)⟩) := by
  intro fuel
  induction fuel with
  | zero =>
      intro p nid b h1 h2
      exfalso
      simp only [Nat.add_zero] at h2
      omega
  | succ fuel ih =>
      intro p nid b h1 h2
      rw [TelegramMessageWriter.drainFlush]
      rw [flush_fresh b p nid h1]
      by_cases ht : (p + 1) * TELEGRAM_MAX_CHARS < b.length
      · rw [if_pos ht]
        have h2' : b.length ≤ (p + 1 + fuel) * TELEGRAM_MAX_CHARS := by
          have hpe : p + 1 + fuel = p + (fuel + 1) := by omega
          rw [hpe]
          exact h2
        have hm2 : p + 1 < numPages b := lt_numPages_of_lt b.length (p + 1) ht
        have hrange : numPages b - p = (numPages b - (p + 1)) + 1 := by omega
        rw [ih (p + 1) (nid + 1) b ht h2']
        rw [hrange, List.range_succ_eq_map, List.map_cons, List.map_map]
        simp only [if_true, ite_true, List.singleton_append, Prod.mk.injEq, List.cons.injEq]
        refine ⟨⟨?_, ?_⟩, ?_⟩
        · simp
        · apply List.map_congr_left
          intro i _
          simp only [Function.comp_apply, Nat.succ_eq_add_one]
          have e1 : nid + (i + 1) = nid + 1 + i := by omega
          have e2 : p + (i + 1) = p + 1 + i := by omega
          rw [e1, e2]
        · have e3 : nid + 1 + (numPages b - (p + 1) - 1) =
              nid + (numPages b - (p + 1) + 1 - 1) := by omega
          have e4 : nid + 1 + (numPages b - (p + 1)) = nid + (numPages b - (p + 1) + 1) := by
            omega
          rw [e3, e4]
      · rw [if_neg ht]
        push_neg at ht
        have hnp : numPages b = p + 1 := numPages_last b.length p h1 ht
        simp only [hnp]
        have hone : p + 1 - p = 1 := by omega
        rw [hone]
        rw [show List.range 1 = [0] from rfl]
        simp

/-- C6: from a fresh writer whose buffer is `b`, following the flush /
reschedule chain sends exactly the consecutive disjoint page slices of the
buffer, in order, each at most one page (4096) long, each as a fresh
message; their concatenation is the whole buffer (no loss or duplication
at the boundaries), and the number of page transitions is the page count
minus one. -/
theorem telegram_pagination (b : List Char) (hb : b ≠ []) :
    ((TelegramMessageWriter.drainFlush (numPages b) ⟨b, none, 0, 0⟩).1.map
        SendAction.textOf = pageSlices b) ∧
    (((TelegramMessageWriter.drainFlush (numPages b) ⟨b, none, 0, 0⟩).1.map
        SendAction.textOf).flatten = b) ∧
    (∀ a ∈ (TelegramMessageWriter.drainFlush (numPages b) ⟨b, none, 0, 0⟩).1,
        a.isSendNew = true) ∧
    ((TelegramMessageWriter.drainFlush (numPages b) ⟨b, none, 0, 0⟩).1.length = numPages b) ∧
    ((TelegramMessageWriter.drainFlush (numPages b) ⟨b, none, 0, 0⟩).2.messagePageIndex =
        numPages b - 1) ∧
    (∀ a ∈ (TelegramMessageWriter.drainFlush (numPages b) ⟨b, none, 0, 0⟩).1,
        a.textOf.length ≤ TELEGRAM_MAX_CHARS) := by
  have hpos : 0 * TELEGRAM_MAX_CHARS < b.length := by
    rw [Nat.zero_mul]
    exact List.length_pos.2 hb
  have hcov : b.length ≤ (0 + numPages b) * TELEGRAM_MAX_CHARS := by
    rw [Nat.zero_add]
    exact le_numPages_mul b.length
  rw [drainFlush_run (numPages b) 0 0 b hpos hcov]
  have hslices : (List.range (numPages b - 0)).map
      (SendAction.textOf ∘ fun i => SendAction.sendNew (0 + i)
        ((b.drop ((0 + i) * TELEGRAM_MAX_CHARS)).take TELEGRAM_MAX_CHARS)) =
      pageSlices b := by
    rw [Nat.sub_zero]
    apply List.map_congr_left
    intro i _
    simp [SendAction.textOf]
  refine ⟨?_, ?_, ?_, ?_, ?_, ?_⟩
  · rw [List.map_map]
    exact hslices
  · rw [List.map_map, hslices]
    exact join_page_slices (numPages b) b (le_numPages_mul b.length)
  · intro a ha
    simp only [List.mem_map] at ha
    obtain ⟨i, _, hi⟩ := ha
    rw [← hi]
    rfl
  · simp
  · rfl
  · intro a ha
    simp only [List.mem_map] at ha
    obtain ⟨i, _, hi⟩ := ha
    rw [← hi]
    exact List.length_take_le TELEGRAM_MAX_CHARS (b.drop ((0 + i) * TELEGRAM_MAX_CHARS))

/-- Witness for C6 at a concrete non-empty buffer. -/
theorem telegram_pagination_witness :
    (['a'] : List Char) ≠ [] ∧
    ((TelegramMessageWriter.drainFlush (numPages ['a']) ⟨['a'], none, 0, 0⟩).1.map
        SendAction.textOf).flatten = ['a'] :=
  ⟨by simp, (telegram_pagination ['a'] (by simp)).2.1⟩

/-! ## Agent-loop stream lemmas -/

section AgentLemmas

variable {W : Type}
variable (P : String → Bool) (eT : W → String → JsonVal → W × ToolOutcome)
variable (hbo : W → String → JsonVal → Nat)

/-- With no cancellation, a non-stop stream event just advances the turn
state by `turnStep`. -/
theorem processTurn_cons_nonstop (resp : StreamResp) (e : StreamEvent)
    (he : e ≠ StreamEvent.messageStop) (rest : List StreamEvent) (st : TurnState W) :
    processTurn P eT hbo none resp (e :: rest) st =
      processTurn P eT hbo none resp rest (turnStep P st e) := by
  cases e with
  | messageStop => exact absurd rfl he
  | blockStartText => rfl
  | blockStartToolUse n i => rfl
  | textDelta s => rfl
  | inputJsonDelta s => rfl
  | blockStop => rfl

/-- With no cancellation, a stop-free event prefix folds through the turn
state. -/
theorem processTurn_append (resp : StreamResp) :
    ∀ (evs : List StreamEvent), StreamEvent.messageStop ∉ evs →
      ∀ (tail : List StreamEvent) (st : TurnState W),
        processTurn P eT hbo none resp (evs ++ tail) st =
          processTurn P eT hbo none resp tail (streamFold P st evs) := by
  intro evs
  induction evs with
  | nil => intro _ tail st; rfl
  | cons e evs ih =>
      intro hmem tail st
      have he : e ≠ StreamEvent.messageStop := by
        intro h
        exact hmem (h ▸ List.mem_cons_self e evs)
      have hmem' : StreamEvent.messageStop ∉ evs := fun h => hmem (List.mem_cons_of_mem e h)
      rw [List.cons_append, processTurn_cons_nonstop P eT hbo resp e he, ih hmem']
      rfl

/-- The fold's effect on the turn state, componentwise. -/
theorem streamFold_spec :
    ∀ (evs : List StreamEvent) (st : TurnState W),
      streamFold P st evs =
        ⟨st.out ++ streamEmits evs, evs.foldl (decodeStep P) st.blocks, st.messages,
         st.cumulative, st.world, st.polls + evs.length⟩ := by
  intro evs
  induction evs with
  | nil => intro st; simp [streamFold, streamEmits]
  | cons e evs ih =>
      intro st
      rw [streamFold, List.foldl_cons]
      have : evs.foldl (turnStep P) (turnStep P st e) = streamFold P (turnStep P st e) evs := rfl
      rw [this, ih]
      simp only [turnStep, streamEmits, List.flatMap_cons, List.foldl_cons]
      congr 1
      · rw [List.append_assoc]
      · rw [List.length_cons]
        omega

end AgentLemmas

/-! ## Event-class lemmas -/

/-- `streamEmits` unfolds on cons. -/
theorem streamEmits_cons (e : StreamEvent) (evs : List StreamEvent) :
    streamEmits (e :: evs) = streamEmit e ++ streamEmits evs := rfl

/-- Streaming forwards only text chunks and tool starts: none of the
terminal or tool-done event classes occur in the forwarded prefix. -/
theorem streamEmits_filters (evs : List StreamEvent) :
    (streamEmits evs).filter AgentEvent.isNeedsContinue = [] ∧
    (streamEmits evs).filter AgentEvent.isComplete = [] ∧
    (streamEmits evs).filter AgentEvent.isError = [] ∧
    (streamEmits evs).filter AgentEvent.isToolDone = [] := by
  induction evs with
  | nil => exact ⟨rfl, rfl, rfl, rfl⟩
  | cons e evs ih =>
      refine ⟨?_, ?_, ?_, ?_⟩ <;> rw [streamEmits_cons, List.filter_append]
      · rw [ih.1, List.append_nil]
        cases e <;> rfl
      · rw [ih.2.1, List.append_nil]
        cases e <;> rfl
      · rw [ih.2.2.1, List.append_nil]
        cases e <;> rfl
      · rw [ih.2.2.2, List.append_nil]
        cases e <;> rfl

/-- The tool-start events forwarded while streaming, in stream order. -/
theorem streamEmits_toolStarts (evs : List StreamEvent) :
    (streamEmits evs).filter AgentEvent.isToolStart = streamToolStarts evs := by
  induction evs with
  | nil => rfl
  | cons e evs ih =>
      rw [streamEmits_cons, List.filter_append, ih]
      cases e <;> rfl

/-- Heartbeat bursts contain no events of any other class. -/
theorem heartbeats_filters (n : String) (k : Nat) (p : AgentEvent → Bool)
    (hp : ∀ m e, p (AgentEvent.heartbeat m e) = false) :
    (heartbeats n k).filter p = [] := by
  rw [List.filter_eq_nil_iff]
  intro a ha
  simp only [heartbeats, List.mem_map, List.mem_range] at ha
  obtain ⟨i, _, hi⟩ := ha
  rw [← hi]
  simp [hp]

/-! ## Tool-execution lemmas -/

section ExecLemmas

variable {W : Type}
variable (eT : W → String → JsonVal → W × ToolOutcome)
variable (hbo : W → String → JsonVal → Nat)

/-- `toolCallsOf` on a cons. -/
theorem toolCallsOf_cons_text (s : String) (rest : List ContentBlock) :
    toolCallsOf (ContentBlock.text s :: rest) = toolCallsOf rest := rfl

theorem toolCallsOf_cons_tool (n i : String) (j : JsonVal) (rest : List ContentBlock) :
    toolCallsOf (ContentBlock.toolUse n i j :: rest) = (n, i, j) :: toolCallsOf rest := rfl

/-- With no cancellation, the tool loop is exactly the sequential trace:
its events are `execOut`, its accumulated results are the full trace
texts, its world is the trace's final world, and it polls once per tool
block. -/
theorem execBlocks_spec :
    ∀ (content : List ContentBlock) (acc : ExecAcc W),
      execBlocks eT hbo none content acc =
        ⟨acc.out ++ execOut eT hbo acc.world (toolCallsOf content),
         acc.results ++ (execTrace eT acc.world (toolCallsOf content)).2.map
           (fun t => ⟨t.2.1, t.2.2⟩),
         (execTrace eT acc.world (toolCallsOf content)).1,
         acc.polls + (toolCallsOf content).length⟩ := by
  intro content
  induction content with
  | nil => intro acc; simp [execBlocks, execOut, execTrace, toolCallsOf]
  | cons b rest ih =>
      intro acc
      cases b with
      | text s =>
          rw [execBlocks, ih, toolCallsOf_cons_text]
      | toolUse n i j =>
          rw [execBlocks]
          simp only [isAborted, if_false]
          rw [ih, toolCallsOf_cons_tool]
          simp only [execOut, execTrace, execCall]
          by_cases hk : n ∈ knownTools
          · simp only [if_pos hk]
            cases hout : eT acc.world n j with
            | mk w' oc =>
                cases oc <;>
                  simp [List.append_assoc, Nat.add_comm, Nat.add_left_comm, Nat.add_assoc]
          · simp only [if_neg hk]
            simp [heartbeats, List.append_assoc, Nat.add_comm, Nat.add_left_comm,
              Nat.add_assoc]

/-- The tool loop's events: tool_done per call (with the 500-char
preview), in call order; no tool_start and no terminal events. -/
theorem execOut_filters :
    ∀ (calls : List (String × String × JsonVal)) (w : W),
      (execOut eT hbo w calls).filter AgentEvent.isToolDone =
        (execTrace eT w calls).2.map (fun t => AgentEvent.toolDone t.1 (jsTake t.2.2 500)) ∧
      (execOut eT hbo w calls).filter AgentEvent.isToolStart = [] ∧
      (execOut eT hbo w calls).filter AgentEvent.isNeedsContinue = [] ∧
      (execOut eT hbo w calls).filter AgentEvent.isComplete = [] ∧
      (execOut eT hbo w calls).filter AgentEvent.isError = [] := by
  intro calls
  induction calls with
  | nil => intro w; exact ⟨rfl, rfl, rfl, rfl, rfl⟩
  | cons c rest ih =>
      intro w
      obtain ⟨n, i, j⟩ := c
      obtain ⟨iha, ihb, ihc, ihd, ihe⟩ := ih (execCall eT w n j).1
      have hcons : execOut eT hbo w ((n, i, j) :: rest) =
          (if n ∈ knownTools then heartbeats n (hbo w n j) else []) ++
            ([AgentEvent.toolDone n (jsTake (execCall eT w n j).2 500)] ++
             execOut eT hbo (execCall eT w n j).1 rest) := by
        rw [execOut, List.append_assoc]
      have hhb : ∀ (p : AgentEvent → Bool), (∀ m e, p (AgentEvent.heartbeat m e) = false) →
          ((if n ∈ knownTools then heartbeats n (hbo w n j) else []) : List AgentEvent).filter
            p = [] := by
        intro p hp
        by_cases hk : n ∈ knownTools
        · rw [if_pos hk]
          exact heartbeats_filters n (hbo w n j) p hp
        · rw [if_neg hk]
          rfl
      refine ⟨?_, ?_, ?_, ?_, ?_⟩ <;>
        rw [hcons, List.filter_append, List.filter_append]
      · rw [iha, hhb AgentEvent.isToolDone (fun _ _ => rfl)]
        rfl
      · rw [ihb, hhb AgentEvent.isToolStart (fun _ _ => rfl)]
        rfl
      · rw [ihc, hhb AgentEvent.isNeedsContinue (fun _ _ => rfl)]
        rfl
      · rw [ihd, hhb AgentEvent.isComplete (fun _ _ => rfl)]
        rfl
      · rw [ihe, hhb AgentEvent.isError (fun _ _ => rfl)]
        rfl

end ExecLemmas

section TraceLemmas

variable {W : Type}
variable (eT : W → String → JsonVal → W × ToolOutcome)

/-- The sequential trace splits over concatenation: the second batch runs
in the world produced by the first. -/
theorem execTrace_append :
    ∀ (a b : List (String × String × JsonVal)) (w : W),
      execTrace eT w (a ++ b) =
        ((execTrace eT (execTrace eT w a).1 b).1,
         (execTrace eT w a).2 ++ (execTrace eT (execTrace eT w a).1 b).2) := by
  intro a
  induction a with
  | nil => intro b w; rfl
  | cons c rest ih =>
      intro b w
      obtain ⟨n, i, j⟩ := c
      rw [List.cons_append]
      simp only [execTrace]
      rw [ih b (execCall eT w n j).1]
      simp [List.cons_append]

/-- One result triple per call. -/
theorem execTrace_length :
    ∀ (calls : List (String × String × JsonVal)) (w : W),
      (execTrace eT w calls).2.length = calls.length := by
  intro calls
  induction calls with
  | nil => intro w; rfl
  | cons c rest ih =>
      intro w
      obtain ⟨n, i, j⟩ := c
      simp only [execTrace, List.length_cons]
      rw [ih]

/-- The first `k` results of the batch are exactly the results of running
only the first `k` calls: each result is fixed before any later call
executes. -/
theorem execTrace_take (calls : List (String × String × JsonVal)) (w : W) (k : Nat) :
    (execTrace eT w calls).2.take k = (execTrace eT w (calls.take k)).2 := by
  have hsplit := execTrace_append eT (calls.take k) (calls.drop k) w
  rw [List.take_append_drop] at hsplit
  rw [hsplit]
  by_cases hk : k ≤ calls.length
  · have hlen : (execTrace eT w (calls.take k)).2.length = k := by
      rw [execTrace_length, List.length_take]
      omega
    rw [List.take_append_eq_append_take, hlen]
    simp
    omega
  · push_neg at hk
    have hdrop : calls.drop k = [] := List.drop_eq_nil_of_le (by omega)
    have htake : calls.take k = calls := List.take_of_length_le (by omega)
    rw [hdrop, htake]
    simp only [execTrace]
    rw [List.append_nil]
    exact List.take_of_length_le (by rw [execTrace_length]; omega)

/-- With the logging oracle and known tools, the final world is the
initial one extended by one `(name, input)` record per call, in call
order. -/
theorem execTrace_logger (f : List (String × JsonVal) → String → JsonVal → String) :
    ∀ (calls : List (String × String × JsonVal)) (w : List (String × JsonVal)),
      (∀ c ∈ calls, c.1 ∈ knownTools) →
      (execTrace (loggerExec f) w calls).1 = w ++ calls.map (fun c => (c.1, c.2.2)) := by
  intro calls
  induction calls with
  | nil => intro w _; simp [execTrace]
  | cons c rest ih =>
      intro w hknown
      obtain ⟨n, i, j⟩ := c
      have hk : n ∈ knownTools := hknown (n, i, j) (List.mem_cons_self _ _)
      simp only [execTrace, execCall, if_pos hk, loggerExec]
      rw [ih (w ++ [(n, j)]) (fun c hc => hknown c (List.mem_cons_of_mem _ hc))]
      simp [List.append_assoc]

end TraceLemmas

/-- The warning append adds only a text chunk. -/
theorem warnAppend_filter (out : List AgentEvent) (cum : Nat) (p : AgentEvent → Bool)
    (hp : ∀ s, p (AgentEvent.textChunk s) = false) :
    (warnAppend out cum).filter p = out.filter p := by
  rw [warnAppend]
  split_ifs with h
  · rw [List.filter_append]
    simp [hp]
  · rfl

/-! ## message_stop dispatch lemmas -/

section StopLemmas

variable {W : Type}
variable (P : String → Bool) (eT : W → String → JsonVal → W × ToolOutcome)
variable (hbo : W → String → JsonVal → Nat)

/-- Token ceiling exceeded at message_stop: emit exactly the
needs_continue (no warning chunk, which requires being under the ceiling)
and return the history including this assistant turn. -/
theorem processTurn_stop_cutoff (resp : StreamResp) (rest : List StreamEvent)
    (st : TurnState W) (h : TOKEN_CUTOFF_THRESHOLD < st.cumulative + resp.usageIn) :
    processTurn P eT hbo none resp (StreamEvent.messageStop :: rest) st =
      TurnResult.returned
        (st.out ++ [AgentEvent.needsContinue (cutoffSummary (st.cumulative + resp.usageIn))])
        (st.messages ++
          [⟨Role.assistant, MsgContent.blocks (st.blocks.map RawBlock.toContent)⟩]) := by
  rw [processTurn]
  rw [if_neg (by simp [isAborted])]
  have hwarn : ¬ (TOKEN_WARN_THRESHOLD < st.cumulative + resp.usageIn ∧
      st.cumulative + resp.usageIn ≤ TOKEN_CUTOFF_THRESHOLD) := by
    simp only [TOKEN_WARN_THRESHOLD, TOKEN_CUTOFF_THRESHOLD] at *
    omega
  simp only [hwarn, if_false, if_pos h]

/-- `end_turn` under the ceiling: emit complete (after a possible warning
chunk) and return. -/
theorem processTurn_stop_endTurn (resp : StreamResp) (rest : List StreamEvent)
    (st : TurnState W) (hsr : resp.stopReason = StopReason.endTurn)
    (hcut : st.cumulative + resp.usageIn ≤ TOKEN_CUTOFF_THRESHOLD) :
    processTurn P eT hbo none resp (StreamEvent.messageStop :: rest) st =
      TurnResult.returned
        (warnAppend st.out (st.cumulative + resp.usageIn) ++
          [AgentEvent.complete resp.usageIn resp.usageOut])
        (st.messages ++
          [⟨Role.assistant, MsgContent.blocks (st.blocks.map RawBlock.toContent)⟩]) := by
  rw [processTurn]
  rw [if_neg (by simp [isAborted])]
  have hnc : ¬ TOKEN_CUTOFF_THRESHOLD < st.cumulative + resp.usageIn := by omega
  simp only [hnc, if_false, hsr, warnAppend]

/-- Other stop reasons under the ceiling behave like `end_turn`. -/
theorem processTurn_stop_other (resp : StreamResp) (rest : List StreamEvent)
    (st : TurnState W) (hsr : resp.stopReason = StopReason.otherStop)
    (hcut : st.cumulative + resp.usageIn ≤ TOKEN_CUTOFF_THRESHOLD) :
    processTurn P eT hbo none resp (StreamEvent.messageStop :: rest) st =
      TurnResult.returned
        (warnAppend st.out (st.cumulative + resp.usageIn) ++
          [AgentEvent.complete resp.usageIn resp.usageOut])
        (st.messages ++
          [⟨Role.assistant, MsgContent.blocks (st.blocks.map RawBlock.toContent)⟩]) := by
  rw [processTurn]
  rw [if_neg (by simp [isAborted])]
  have hnc : ¬ TOKEN_CUTOFF_THRESHOLD < st.cumulative + resp.usageIn := by omega
  simp only [hnc, if_false, hsr, warnAppend]

/-- `tool_use` under the ceiling: push the assistant turn, run the tool
batch sequentially, push the tool-result turn, and keep streaming. -/
theorem processTurn_stop_toolUse (resp : StreamResp) (rest : List StreamEvent)
    (st : TurnState W) (hsr : resp.stopReason = StopReason.toolUse)
    (hcut : st.cumulative + resp.usageIn ≤ TOKEN_CUTOFF_THRESHOLD) :
    processTurn P eT hbo none resp (StreamEvent.messageStop :: rest) st =
      processTurn P eT hbo none resp rest
        { out := warnAppend st.out (st.cumulative + resp.usageIn) ++
            execOut eT hbo st.world (toolCallsOf (st.blocks.map RawBlock.toContent)),
          blocks := st.blocks,
          messages := st.messages ++
            [⟨Role.assistant, MsgContent.blocks (st.blocks.map RawBlock.toContent)⟩,
             ⟨Role.user, MsgContent.toolResults
               ((execTrace eT st.world (toolCallsOf (st.blocks.map RawBlock.toContent))).2.map
                 (fun t => ⟨t.2.1, t.2.2⟩))⟩],
          cumulative := st.cumulative + resp.usageIn,
          world := (execTrace eT st.world (toolCallsOf (st.blocks.map RawBlock.toContent))).1,
          polls := st.polls + 1 + (toolCallsOf (st.blocks.map RawBlock.toContent)).length } := by
  rw [processTurn]
  rw [if_neg (by simp [isAborted])]
  have hnc : ¬ TOKEN_CUTOFF_THRESHOLD < st.cumulative + resp.usageIn := by omega
  simp only [hnc, if_false, hsr]
  rw [execBlocks_spec]
  simp only [List.nil_append, warnAppend]

end StopLemmas

/-- `warnAppend` splits off its tail. -/
theorem warnAppend_eq_append (out : List AgentEvent) (cum : Nat) :
    warnAppend out cum = out ++ warnAppend [] cum := by
  rw [warnAppend, warnAppend]
  split_ifs <;> simp

/-! ## while-loop lemmas -/

section LoopLemmas

variable {W : Type}
variable (P : String → Bool) (eT : W → String → JsonVal → W × ToolOutcome)
variable (hbo : W → String → JsonVal → Nat)

/-- One clean tool_use turn under both ceilings: the loop consumes the
response, emits only non-terminal events (stream chunks and tool starts,
a possible warning chunk, heartbeats and tool dones), appends the
assistant and tool-result turns, accumulates the usage, and continues. -/
theorem runLoop_clean_step (resp : StreamResp)
    (st : LoopState W) (evs : List StreamEvent)
    (hwf : resp.events = evs ++ [StreamEvent.messageStop])
    (hns : StreamEvent.messageStop ∉ evs)
    (hsr : resp.stopReason = StopReason.toolUse)
    (hcut : st.cumulative + resp.usageIn ≤ TOKEN_CUTOFF_THRESHOLD)
    (hturn : st.turns < MAX_TURNS_PER_PHASE) :
    ∃ (Δ : List AgentEvent) (ms : List MessageParam) (w' : W) (p' : Nat),
      (∀ rest : List StreamResp,
        runLoop P eT hbo none (resp :: rest) st =
          runLoop P eT hbo none rest
            ⟨st.out ++ Δ, st.messages ++ ms, st.turns + 1, st.cumulative + resp.usageIn,
             w', p'⟩) ∧
      Δ.filter AgentEvent.isNeedsContinue = [] ∧
      Δ.filter AgentEvent.isComplete = [] ∧
      Δ.filter AgentEvent.isError = [] := by
  have hnotover : ¬ MAX_TURNS_PER_PHASE ≤ st.turns := by omega
  refine ⟨streamEmits evs ++ (warnAppend [] (st.cumulative + resp.usageIn) ++
      execOut eT hbo st.world
        (toolCallsOf ((evs.foldl (decodeStep P) []).map RawBlock.toContent))),
    [⟨Role.assistant, MsgContent.blocks ((evs.foldl (decodeStep P) []).map RawBlock.toContent)⟩,
     ⟨Role.user, MsgContent.toolResults
       ((execTrace eT st.world
           (toolCallsOf ((evs.foldl (decodeStep P) []).map RawBlock.toContent))).2.map
         (fun t => ⟨t.2.1, t.2.2⟩))⟩],
    (execTrace eT st.world
      (toolCallsOf ((evs.foldl (decodeStep P) []).map RawBlock.toContent))).1,
    st.polls + 1 + evs.length + 1 +
      (toolCallsOf ((evs.foldl (decodeStep P) []).map RawBlock.toContent)).length + 1,
    ?_, ?_, ?_, ?_⟩
  · intro rest
    rw [runLoop, if_neg hnotover, if_neg (by simp [isAborted])]
    rw [hwf, processTurn_append P eT hbo resp evs hns [StreamEvent.messageStop]]
    rw [streamFold_spec]
    rw [processTurn_stop_toolUse P eT hbo resp [] _ hsr hcut]
    rw [processTurn]
    simp only [isAborted, Bool.false_eq_true, if_false]
    rw [warnAppend_eq_append]
    simp only [List.append_assoc]
  · simp only [List.filter_append, (streamEmits_filters evs).1,
      warnAppend_filter [] _ AgentEvent.isNeedsContinue (fun _ => rfl),
      (execOut_filters eT hbo _ st.world).2.2.1]
    rfl
  · simp only [List.filter_append, (streamEmits_filters evs).2.1,
      warnAppend_filter [] _ AgentEvent.isComplete (fun _ => rfl),
      (execOut_filters eT hbo _ st.world).2.2.2.1]
    rfl
  · simp only [List.filter_append, (streamEmits_filters evs).2.2.1,
      warnAppend_filter [] _ AgentEvent.isError (fun _ => rfl),
      (execOut_filters eT hbo _ st.world).2.2.2.2]
    rfl

end LoopLemmas

/-- `usageSum` on nil and cons. -/
theorem usageSum_nil : usageSum [] = 0 := rfl

theorem usageSum_cons (r : StreamResp) (rs : List StreamResp) :
    usageSum (r :: rs) = r.usageIn + usageSum rs := by
  simp [usageSum]

section LoopPrefix

variable {W : Type}
variable (P : String → Bool) (eT : W → String → JsonVal → W × ToolOutcome)
variable (hbo : W → String → JsonVal → Nat)

/-- A run of clean tool_use turns, all under both ceilings, only
accumulates non-terminal events while adding one turn and one usage
amount per response. -/
theorem runLoop_clean_prefix :
    ∀ (rs : List StreamResp) (st : LoopState W),
      (∀ r ∈ rs, WfResp r) →
      (∀ r ∈ rs, r.stopReason = StopReason.toolUse) →
      (∀ i, i < rs.length → st.cumulative + usageSum (rs.take (i + 1)) ≤
        TOKEN_CUTOFF_THRESHOLD) →
      st.turns + rs.length ≤ MAX_TURNS_PER_PHASE →
      ∃ (Δ : List AgentEvent) (ms : List MessageParam) (w' : W) (p' : Nat),
        (∀ rest : List StreamResp,
          runLoop P eT hbo none (rs ++ rest) st =
            runLoop P eT hbo none rest
              ⟨st.out ++ Δ, st.messages ++ ms, st.turns + rs.length,
               st.cumulative + usageSum rs, w', p'⟩) ∧
        Δ.filter AgentEvent.isNeedsContinue = [] ∧
        Δ.filter AgentEvent.isComplete = [] ∧
        Δ.filter AgentEvent.isError = [] := by
  intro rs
  induction rs with
  | nil =>
      intro st _ _ _ _
      refine ⟨[], [], st.world, st.polls, fun rest => ?_, rfl, rfl, rfl⟩
      simp [usageSum_nil]
  | cons r rs ih =>
      intro st hwf hsr hsum hturn
      obtain ⟨evs, hevs, hns⟩ := hwf r (List.mem_cons_self r rs)
      have hcut : st.cumulative + r.usageIn ≤ TOKEN_CUTOFF_THRESHOLD := by
        have h0 := hsum 0 (by simp)
        simpa [usageSum_cons, usageSum_nil] using h0
      have hturn1 : st.turns < MAX_TURNS_PER_PHASE := by
        rw [List.length_cons] at hturn
        omega
      obtain ⟨Δ1, ms1, w1, p1, hstep, hf1, hf2, hf3⟩ :=
        runLoop_clean_step P eT hbo r st evs hevs hns
          (hsr r (List.mem_cons_self r rs)) hcut hturn1
      obtain ⟨Δ2, ms2, w2, p2, htail, hg1, hg2, hg3⟩ :=
        ih ⟨st.out ++ Δ1, st.messages ++ ms1, st.turns + 1,
            st.cumulative + r.usageIn, w1, p1⟩
          (fun x hx => hwf x (List.mem_cons_of_mem r hx))
          (fun x hx => hsr x (List.mem_cons_of_mem r hx))
          (by
            intro i hi
            have h0 := hsum (i + 1) (by simp; omega)
            rw [List.take_succ_cons, usageSum_cons] at h0
            simp only
            omega)
          (by
            simp only
            rw [List.length_cons] at hturn
            omega)
      refine ⟨Δ1 ++ Δ2, ms1 ++ ms2, w2, p2, fun rest => ?_, ?_, ?_, ?_⟩
      · rw [List.cons_append, hstep (rs ++ rest), htail rest]
        have harr : st.out ++ Δ1 ++ Δ2 = st.out ++ (Δ1 ++ Δ2) := by
          rw [List.append_assoc]
        have hmsg : st.messages ++ ms1 ++ ms2 = st.messages ++ (ms1 ++ ms2) := by
          rw [List.append_assoc]
        have hcum : st.cumulative + r.usageIn + usageSum rs =
            st.cumulative + usageSum (r :: rs) := by
          rw [usageSum_cons]
          omega
        have htn : st.turns + 1 + rs.length = st.turns + (r :: rs).length := by
          rw [List.length_cons]
          omega
        rw [harr, hmsg, hcum, htn]
      · rw [List.filter_append, hf1, hg1]
        rfl
      · rw [List.filter_append, hf2, hg2]
        rfl
      · rw [List.filter_append, hf3, hg3]
        rfl

end LoopPrefix

section LoopFinish

variable {W : Type}
variable (P : String → Bool) (eT : W → String → JsonVal → W × ToolOutcome)
variable (hbo : W → String → JsonVal → Nat)

/-- Once the turn ceiling is reached, the loop ends the phase with the
needs_continue fall-through, consuming no further responses. -/
theorem runLoop_turnLimit (resps : List StreamResp) (st : LoopState W)
    (h : MAX_TURNS_PER_PHASE ≤ st.turns) :
    runLoop P eT hbo none resps st = some (finishPhase st.out st.messages) := by
  cases resps with
  | nil => rw [runLoop, if_pos h]
  | cons r rest => rw [runLoop, if_pos h]

end LoopFinish

/-! ## C1 — phase ceilings yield exactly one needs_continue -/

/-- C1: if the cumulative input-token total exceeds the hard ceiling at a
message_stop, or the per-phase turn ceiling is reached by tool_use turns
without a terminal condition, `runAgent` emits exactly one needs_continue
event for the phase, no complete and no error event, and returns the
accumulated history immediately — the result does not depend on any
further model responses. -/
theorem phase_ceilings_needs_continue :
    (∀ {W : Type} (P : String → Bool) (eT : W → String → JsonVal → W × ToolOutcome)
        (hbo : W → String → JsonVal → Nat) (u : String) (imgs : List ImagePart)
        (h0 : List MessageParam) (w0 : W) (front : List StreamResp) (r : StreamResp),
        (∀ x ∈ front, WfResp x) →
        (∀ x ∈ front, x.stopReason = StopReason.toolUse) →
        (∀ i, i < front.length → usageSum (front.take (i + 1)) ≤ TOKEN_CUTOFF_THRESHOLD) →
        front.length + 1 ≤ MAX_TURNS_PER_PHASE →
        WfResp r →
        TOKEN_CUTOFF_THRESHOLD < usageSum front + r.usageIn →
        ∃ out hist,
          (∀ rest, runAgent P eT hbo none u imgs h0 (front ++ r :: rest) w0 =
            some (out, hist)) ∧
          countEv AgentEvent.isNeedsContinue out = 1 ∧
          countEv AgentEvent.isComplete out = 0 ∧
          countEv AgentEvent.isError out = 0) ∧
    (∀ {W : Type} (P : String → Bool) (eT : W → String → JsonVal → W × ToolOutcome)
        (hbo : W → String → JsonVal → Nat) (u : String) (imgs : List ImagePart)
        (h0 : List MessageParam) (w0 : W) (rs : List StreamResp),
        rs.length = MAX_TURNS_PER_PHASE →
        (∀ x ∈ rs, WfResp x) →
        (∀ x ∈ rs, x.stopReason = StopReason.toolUse) →
        (∀ i, i < rs.length → usageSum (rs.take (i + 1)) ≤ TOKEN_CUTOFF_THRESHOLD) →
        ∃ out hist,
          (∀ rest, runAgent P eT hbo none u imgs h0 (rs ++ rest) w0 =
            some (out, hist)) ∧
          countEv AgentEvent.isNeedsContinue out = 1 ∧
          countEv AgentEvent.isComplete out = 0 ∧
          countEv AgentEvent.isError out = 0) := by
  constructor
  · intro W P eT hbo u imgs h0 w0 front r hwf hsr hsum hlen hwfr hover
    obtain ⟨Δ, ms, w1, p1, hpre, hf1, hf2, hf3⟩ :=
      runLoop_clean_prefix P eT hbo front
        ⟨[], h0 ++ [⟨Role.user, buildUserContent u imgs⟩], 0, 0, w0, 0⟩
        hwf hsr (by intro i hi; simpa using hsum i hi) (by simp only; omega)
    obtain ⟨evsr, hevsr, hnsr⟩ := hwfr
    refine ⟨(Δ ++ streamEmits evsr) ++
        [AgentEvent.needsContinue (cutoffSummary (0 + usageSum front + r.usageIn))],
      ((h0 ++ [⟨Role.user, buildUserContent u imgs⟩]) ++ ms) ++
        [⟨Role.assistant, MsgContent.blocks
          ((List.foldl (decodeStep P) [] evsr).map RawBlock.toContent)⟩],
      fun rest => ?_, ?_, ?_, ?_⟩
    · rw [runAgent, hpre (r :: rest)]
      rw [runLoop, if_neg (by simp only; omega), if_neg (by simp [isAborted])]
      rw [hevsr, processTurn_append P eT hbo r evsr hnsr [StreamEvent.messageStop]]
      rw [streamFold_spec]
      rw [processTurn_stop_cutoff P eT hbo r [] _ (by simp only; omega)]
      rfl
    · simp only [countEv, List.filter_append, hf1, (streamEmits_filters evsr).1,
        List.nil_append, List.filter_nil]
      rfl
    · simp only [countEv, List.filter_append, hf2, (streamEmits_filters evsr).2.1,
        List.nil_append, List.filter_nil]
      rfl
    · simp only [countEv, List.filter_append, hf3, (streamEmits_filters evsr).2.2.1,
        List.nil_append, List.filter_nil]
      rfl
  · intro W P eT hbo u imgs h0 w0 rs hlen hwf hsr hsum
    obtain ⟨Δ, ms, w1, p1, hpre, hf1, hf2, hf3⟩ :=
      runLoop_clean_prefix P eT hbo rs
        ⟨[], h0 ++ [⟨Role.user, buildUserContent u imgs⟩], 0, 0, w0, 0⟩
        hwf hsr (by intro i hi; simpa using hsum i hi) (by simp only; omega)
    refine ⟨Δ ++ [AgentEvent.needsContinue phaseLimitSummary],
      (h0 ++ [⟨Role.user, buildUserContent u imgs⟩]) ++ ms,
      fun rest => ?_, ?_, ?_, ?_⟩
    · rw [runAgent, hpre rest]
      rw [runLoop_turnLimit P eT hbo rest _ (by simp only; omega)]
      rfl
    · simp only [countEv, List.filter_append, hf1, List.nil_append, List.filter_nil]
      rfl
    · simp only [countEv, List.filter_append, hf2, List.nil_append, List.filter_nil]
      rfl
    · simp only [countEv, List.filter_append, hf3, List.nil_append, List.filter_nil]
      rfl

/-- Witness for C1: a first call that blows the token ceiling, and a
phase of 12 cheap tool_use turns. -/
theorem phase_ceilings_needs_continue_witness :
    (∃ out hist,
      (∀ rest, runAgent (fun _ => false) (fun (w : Unit) _ _ => (w, ToolOutcome.ok []))
        (fun _ _ _ => 0) none "go" [] []
        ([] ++ (⟨[StreamEvent.messageStop], StopReason.endTurn, 120000, 5⟩ : StreamResp)
          :: rest) () = some (out, hist)) ∧
      countEv AgentEvent.isNeedsContinue out = 1 ∧
      countEv AgentEvent.isComplete out = 0 ∧
      countEv AgentEvent.isError out = 0) ∧
    (∃ out hist,
      (∀ rest, runAgent (fun _ => false) (fun (w : Unit) _ _ => (w, ToolOutcome.ok []))
        (fun _ _ _ => 0) none "go" [] []
        (List.replicate 12 (⟨[StreamEvent.messageStop], StopReason.toolUse, 0, 0⟩ :
          StreamResp) ++ rest) () = some (out, hist)) ∧
      countEv AgentEvent.isNeedsContinue out = 1 ∧
      countEv AgentEvent.isComplete out = 0 ∧
      countEv AgentEvent.isError out = 0) := by
  constructor
  · exact phase_ceilings_needs_continue.1 (fun _ => false)
      (fun (w : Unit) _ _ => (w, ToolOutcome.ok [])) (fun _ _ _ => 0) "go" [] [] () []
      ⟨[StreamEvent.messageStop], StopReason.endTurn, 120000, 5⟩
      (by simp) (by simp) (by simp) (by decide)
      ⟨[], rfl, by simp⟩ (by decide)
  · exact phase_ceilings_needs_continue.2 (fun _ => false)
      (fun (w : Unit) _ _ => (w, ToolOutcome.ok [])) (fun _ _ _ => 0) "go" [] [] ()
      (List.replicate 12 ⟨[StreamEvent.messageStop], StopReason.toolUse, 0, 0⟩)
      (by decide)
      (by
        intro x hx
        rw [List.eq_of_mem_replicate hx]
        exact ⟨[], rfl, by simp⟩)
      (by
        intro x hx
        rw [List.eq_of_mem_replicate hx])
      (by decide)

/-! ## C2 — cancellation mid-turn (code bug) -/

/-- C2 (code bug evidence): when the abort signal is observed at the first
in-stream poll — a cancellation in the middle of the first turn — the loop
breaks out of the stream, the `break` falls through to the code after the
while loop, and a `needs_continue` terminal event carrying the "Phase
limit (12 turns) reached" summary is emitted even though no phase limit
was reached and the turn was cancelled; the spec requires a cancelled turn
to emit no terminal event at all. -/
theorem cancelled_turn_emits_needs_continue :
    runAgent (fun _ => false) (fun (w : Unit) _ _ => (w, ToolOutcome.ok [])) (fun _ _ _ => 0)
      (some 1) "hi" [] []
      [⟨[StreamEvent.textDelta "x", StreamEvent.messageStop], StopReason.endTurn, 10, 5⟩]
      () =
    some ([AgentEvent.needsContinue phaseLimitSummary],
      [⟨Role.user, MsgContent.plain "hi"⟩]) := by
  decide

/-! ## C3 — malformed tool-input JSON degrades to the empty object -/

/-- Appending a tool block makes `hasTool` true. -/
theorem hasTool_append (bs : List RawBlock) (tb : ToolBlock) :
    hasTool (bs ++ [RawBlock.tool tb]) = true := by
  induction bs with
  | nil => rfl
  | cons b rest ih =>
      cases b with
      | text s => simpa [hasTool] using ih
      | tool tb' => rfl

/-- `updateLastTool` on a list ending in a tool block patches that
block. -/
theorem updateLastTool_append (f : ToolBlock → ToolBlock) (bs : List RawBlock)
    (tb : ToolBlock) :
    updateLastTool f (bs ++ [RawBlock.tool tb]) = bs ++ [RawBlock.tool (f tb)] := by
  induction bs with
  | nil => simp [updateLastTool, hasTool]
  | cons b rest ih =>
      cases b with
      | text s => simpa [updateLastTool] using ih
      | tool tb' =>
          rw [List.cons_append, updateLastTool, if_pos (hasTool_append rest tb), ih]
          rfl

/-- The last tool block of a list ending in a tool block. -/
theorem lastTool_append (bs : List RawBlock) (tb : ToolBlock) :
    lastTool (bs ++ [RawBlock.tool tb]) = some tb := by
  induction bs with
  | nil => rfl
  | cons b rest ih =>
      cases b with
      | text s => simpa [lastTool] using ih
      | tool tb' =>
          rw [List.cons_append, lastTool, if_pos (hasTool_append rest tb)]
          exact ih

/-- Folding input-JSON fragments onto a trailing tool block accumulates
them into its raw input. -/
theorem deltaFold (P : String → Bool) :
    ∀ (frags : List String) (bs : List RawBlock) (n i : String) (r0 : Option String)
      (inp : JsonVal),
      (frags.map StreamEvent.inputJsonDelta).foldl (decodeStep P)
          (bs ++ [RawBlock.tool ⟨n, i, r0, inp⟩]) =
        bs ++ [RawBlock.tool
          ⟨n, i, frags.foldl (fun acc s => some (acc.getD "" ++ s)) r0, inp⟩] := by
  intro frags
  induction frags with
  | nil => intro bs n i r0 inp; rfl
  | cons f rest ih =>
      intro bs n i r0 inp
      rw [List.map_cons, List.foldl_cons]
      have hstep : decodeStep P (bs ++ [RawBlock.tool ⟨n, i, r0, inp⟩])
          (StreamEvent.inputJsonDelta f) =
          bs ++ [RawBlock.tool ⟨n, i, some (r0.getD "" ++ f), inp⟩] := by
        rw [decodeStep]
        exact updateLastTool_append _ bs _
      rw [hstep, ih, List.foldl_cons]

/-- Accumulating fragments from no raw input yields the left-fold
concatenation (or stays absent when there are no fragments). -/
theorem deltaFold_raw (frags : List String) :
    frags.foldl (fun (acc : Option String) s => some (acc.getD "" ++ s)) none =
      match frags with
      | [] => none
      | f :: rest => some (rest.foldl (fun a s => a ++ s) ("" ++ f)) := by
  cases frags with
  | nil => rfl
  | cons f rest =>
      rw [List.foldl_cons]
      have haux : ∀ (l : List String) (r : String),
          l.foldl (fun (acc : Option String) s => some (acc.getD "" ++ s)) (some r) =
            some (l.foldl (fun a s => a ++ s) r) := by
        intro l
        induction l with
        | nil => intro r; rfl
        | cons x xs ih => intro r; rw [List.foldl_cons, List.foldl_cons, ih]; rfl
      exact haux rest ("" ++ f)

/-- Input-JSON fragments forward no events while streaming. -/
theorem streamEmits_deltas (frags : List String) :
    streamEmits (frags.map StreamEvent.inputJsonDelta) = [] := by
  induction frags with
  | nil => rfl
  | cons f rest ih => simpa [streamEmits_cons, streamEmit] using ih

/-- Decoding one tool-use block whose fragments fail to parse: the block
is appended with its input degraded to the empty object (also when the
accumulated raw input is empty or absent). -/
theorem decode_single_tool (P : String → Bool) (frags : List String) (n i : String)
    (hbad : P (frags.foldl (fun a s => a ++ s) "") = false) (bs : List RawBlock) :
    ((StreamEvent.blockStartToolUse n i :: frags.map StreamEvent.inputJsonDelta) ++
        [StreamEvent.blockStop]).foldl (decodeStep P) bs =
      bs ++ [RawBlock.tool
        ⟨n, i, frags.foldl (fun (acc : Option String) s => some (acc.getD "" ++ s)) none,
         JsonVal.emptyObj⟩] := by
  rw [List.foldl_append]
  have hinner : (StreamEvent.blockStartToolUse n i ::
      frags.map StreamEvent.inputJsonDelta).foldl (decodeStep P) bs =
      bs ++ [RawBlock.tool ⟨n, i,
        frags.foldl (fun (acc : Option String) s => some (acc.getD "" ++ s)) none,
        JsonVal.emptyObj⟩] := by
    rw [List.foldl_cons]
    have hstart : decodeStep P bs (StreamEvent.blockStartToolUse n i) =
        bs ++ [RawBlock.tool ⟨n, i, none, JsonVal.emptyObj⟩] := rfl
    rw [hstart, deltaFold P frags bs n i none JsonVal.emptyObj]
  rw [hinner]
  have hstop : decodeStep P
      (bs ++ [RawBlock.tool ⟨n, i,
        frags.foldl (fun (acc : Option String) s => some (acc.getD "" ++ s)) none,
        JsonVal.emptyObj⟩]) StreamEvent.blockStop =
      updateLastTool (stopPatch P)
        (bs ++ [RawBlock.tool ⟨n, i,
          frags.foldl (fun (acc : Option String) s => some (acc.getD "" ++ s)) none,
          JsonVal.emptyObj⟩]) := rfl
  rw [List.foldl_cons, List.foldl_nil, hstop, updateLastTool_append]
  have hpatch : stopPatch P ⟨n, i,
      frags.foldl (fun (acc : Option String) s => some (acc.getD "" ++ s)) none,
      JsonVal.emptyObj⟩ =
      ⟨n, i, frags.foldl (fun (acc : Option String) s => some (acc.getD "" ++ s)) none,
       JsonVal.emptyObj⟩ := by
    rw [deltaFold_raw]
    cases frags with
    | nil => rfl
    | cons f rest =>
        simp only [stopPatch]
        have hr : P (rest.foldl (fun a s => a ++ s) ("" ++ f)) = false := hbad
        by_cases he : rest.foldl (fun a s => a ++ s) ("" ++ f) = ""
        · rw [if_pos he]
        · rw [if_neg he, hr]
          rfl
  rw [hpatch]

/-! ## C3 — malformed tool-input JSON degrades to the empty object -/

/-- C3: for a tool invocation whose accumulated input-JSON fragments do
not parse at block stop, the stream decoder substitutes the empty input
object for that invocation (whatever blocks precede it), and the turn
loop does not abort: the invocation proceeds with empty input — the tool
oracle is called with the empty object, its full result text is recorded
in the history, a tool_done is emitted — and the while loop continues
into the next turn. -/
theorem malformed_input_degrades
    (P : String → Bool) (f : List (String × JsonVal) → String → JsonVal → String)
    (frags : List String) (n i u : String) (h0 : List MessageParam) (resp1 : StreamResp)
    (hbad : P (frags.foldl (fun a s => a ++ s) "") = false)
    (hknown : n ∈ knownTools)
    (hev : resp1.events =
      (StreamEvent.blockStartToolUse n i :: frags.map StreamEvent.inputJsonDelta) ++
        [StreamEvent.blockStop, StreamEvent.messageStop])
    (hsr : resp1.stopReason = StopReason.toolUse)
    (husage : resp1.usageIn ≤ TOKEN_WARN_THRESHOLD) :
    (∀ bs : List RawBlock,
      ((StreamEvent.blockStartToolUse n i :: frags.map StreamEvent.inputJsonDelta) ++
          [StreamEvent.blockStop]).foldl (decodeStep P) bs =
        bs ++ [RawBlock.tool ⟨n, i,
          frags.foldl (fun (acc : Option String) s => some (acc.getD "" ++ s)) none,
          JsonVal.emptyObj⟩]) ∧
    (∃ p' : Nat, ∀ rest : List StreamResp,
      runAgent P (loggerExec f) (fun _ _ _ => 0) none u [] h0 (resp1 :: rest) [] =
        runLoop P (loggerExec f) (fun _ _ _ => 0) none rest
          ⟨[AgentEvent.toolStart n,
            AgentEvent.toolDone n (jsTake (f [] n JsonVal.emptyObj) 500)],
           (h0 ++ [⟨Role.user, MsgContent.plain u⟩]) ++
             [⟨Role.assistant, MsgContent.blocks [ContentBlock.toolUse n i JsonVal.emptyObj]⟩,
              ⟨Role.user, MsgContent.toolResults [⟨i, f [] n JsonVal.emptyObj⟩]⟩],
           0 + 1, 0 + resp1.usageIn, [(n, JsonVal.emptyObj)], p'⟩) := by
  have hdec := decode_single_tool P frags n i hbad
  refine ⟨hdec, ?_⟩
  have hns : StreamEvent.messageStop ∉
      (StreamEvent.blockStartToolUse n i :: frags.map StreamEvent.inputJsonDelta) ++
        [StreamEvent.blockStop] := by simp
  have hdecnil : List.foldl (decodeStep P) ([] : List RawBlock)
      ((StreamEvent.blockStartToolUse n i :: frags.map StreamEvent.inputJsonDelta) ++
        [StreamEvent.blockStop]) =
      [RawBlock.tool ⟨n, i,
        frags.foldl (fun (acc : Option String) s => some (acc.getD "" ++ s)) none,
        JsonVal.emptyObj⟩] := by
    have h := hdec []
    simpa using h
  have hemit : streamEmits
      ((StreamEvent.blockStartToolUse n i :: frags.map StreamEvent.inputJsonDelta) ++
        [StreamEvent.blockStop]) = [AgentEvent.toolStart n] := by
    rw [List.cons_append, streamEmits_cons]
    have h2 : streamEmits (frags.map StreamEvent.inputJsonDelta ++ [StreamEvent.blockStop]) =
        [] := by
      simp only [streamEmits, List.flatMap_append]
      rw [show (frags.map StreamEvent.inputJsonDelta).flatMap streamEmit =
            streamEmits (frags.map StreamEvent.inputJsonDelta) from rfl,
          streamEmits_deltas]
      rfl
    rw [h2]
    rfl
  have hcalls : toolCallsOf (List.map RawBlock.toContent
      [RawBlock.tool ⟨n, i,
        frags.foldl (fun (acc : Option String) s => some (acc.getD "" ++ s)) none,
        JsonVal.emptyObj⟩]) = [(n, i, JsonVal.emptyObj)] := rfl
  have hexecOut : execOut (loggerExec f) (fun _ _ _ => (0 : Nat)) ([] : List (String × JsonVal))
      [(n, i, JsonVal.emptyObj)] =
      [AgentEvent.toolDone n (jsTake (f [] n JsonVal.emptyObj) 500)] := by
    simp only [execOut, execCall, if_pos hknown, loggerExec, heartbeats]
    rfl
  have hexecTrace : execTrace (loggerExec f) ([] : List (String × JsonVal))
      [(n, i, JsonVal.emptyObj)] =
      ([(n, JsonVal.emptyObj)], [(n, i, f [] n JsonVal.emptyObj)]) := by
    simp only [execTrace, execCall, if_pos hknown, loggerExec]
    rfl
  have hcut : (0 : Nat) + resp1.usageIn ≤ TOKEN_CUTOFF_THRESHOLD := by
    simp only [TOKEN_WARN_THRESHOLD] at husage
    simp only [TOKEN_CUTOFF_THRESHOLD]
    omega
  have hwa : warnAppend ([] ++ [AgentEvent.toolStart n]) (0 + resp1.usageIn) =
      [] ++ [AgentEvent.toolStart n] := by
    rw [warnAppend, if_neg]
    rintro ⟨h1, h2⟩
    simp only [TOKEN_WARN_THRESHOLD] at h1
    simp only [TOKEN_WARN_THRESHOLD] at husage
    omega
  refine ⟨0 + 1 + ((StreamEvent.blockStartToolUse n i :: frags.map StreamEvent.inputJsonDelta) ++
      [StreamEvent.blockStop]).length + 1 + 1 + 1, fun rest => ?_⟩
  rw [runAgent, runLoop]
  rw [if_neg (by simp only [MAX_TURNS_PER_PHASE]; omega), if_neg (by simp [isAborted])]
  rw [hev]
  rw [show (StreamEvent.blockStartToolUse n i :: frags.map StreamEvent.inputJsonDelta) ++
        [StreamEvent.blockStop, StreamEvent.messageStop] =
      ((StreamEvent.blockStartToolUse n i :: frags.map StreamEvent.inputJsonDelta) ++
        [StreamEvent.blockStop]) ++ [StreamEvent.messageStop] from by simp]
  rw [processTurn_append P (loggerExec f) (fun _ _ _ => 0) resp1 _ hns [StreamEvent.messageStop]]
  rw [streamFold_spec]
  rw [hemit, hdecnil]
  rw [processTurn_stop_toolUse P (loggerExec f) (fun _ _ _ => 0) resp1 [] _ hsr
    (by simp only; exact hcut)]
  rw [processTurn]
  simp only [isAborted, Bool.false_eq_true, if_false]
  simp only [hcalls, hexecOut, hexecTrace]
  rw [hwa]
  rfl

theorem malformed_input_degrades_witness :
    (∀ bs : List RawBlock,
      ((StreamEvent.blockStartToolUse "run_command" "t1" ::
          (["not", "json"] : List String).map StreamEvent.inputJsonDelta) ++
          [StreamEvent.blockStop]).foldl (decodeStep (fun _ => false)) bs =
        bs ++ [RawBlock.tool ⟨"run_command", "t1",
          (["not", "json"] : List String).foldl
            (fun (acc : Option String) s => some (acc.getD "" ++ s)) none,
          JsonVal.emptyObj⟩]) ∧
    (∃ p' : Nat, ∀ rest : List StreamResp,
      runAgent (fun _ => false) (loggerExec (fun _ _ _ => "ok")) (fun _ _ _ => 0) none
          "go" [] []
          ((⟨(StreamEvent.blockStartToolUse "run_command" "t1" ::
              (["not", "json"] : List String).map StreamEvent.inputJsonDelta) ++
              [StreamEvent.blockStop, StreamEvent.messageStop],
             StopReason.toolUse, 10, 5⟩ : StreamResp) :: rest) [] =
        runLoop (fun _ => false) (loggerExec (fun _ _ _ => "ok")) (fun _ _ _ => 0) none rest
          ⟨[AgentEvent.toolStart "run_command",
            AgentEvent.toolDone "run_command" (jsTake "ok" 500)],
           (([] : List MessageParam) ++ [⟨Role.user, MsgContent.plain "go"⟩]) ++
             [⟨Role.assistant,
               MsgContent.blocks [ContentBlock.toolUse "run_command" "t1" JsonVal.emptyObj]⟩,
              ⟨Role.user, MsgContent.toolResults [⟨"t1", "ok"⟩]⟩],
           0 + 1, 0 + 10, [("run_command", JsonVal.emptyObj)], p'⟩) :=
  malformed_input_degrades (fun _ => false) (fun _ _ _ => "ok") ["not", "json"]
    "run_command" "t1" "go" [] ⟨_, StopReason.toolUse, 10, 5⟩
    rfl (by decide) rfl rfl (by decide)

/-! ## C4 support: block-name bookkeeping for the decode and the batch -/

/-- `rawToolNames` on a tool cons. -/
theorem rawToolNames_cons_tool (tb : ToolBlock) (rest : List RawBlock) :
    rawToolNames (RawBlock.tool tb :: rest) = tb.name :: rawToolNames rest := rfl

/-- `rawToolNames` on a text cons. -/
theorem rawToolNames_cons_text (s : String) (rest : List RawBlock) :
    rawToolNames (RawBlock.text s :: rest) = rawToolNames rest := rfl

/-- `rawToolNames` distributes over append. -/
theorem rawToolNames_append (a b : List RawBlock) :
    rawToolNames (a ++ b) = rawToolNames a ++ rawToolNames b := by
  simp [rawToolNames, List.filterMap_append]

/-- Patching the last tool block with a name-preserving function keeps
the name sequence. -/
theorem rawToolNames_updateLastTool (f : ToolBlock → ToolBlock)
    (hf : ∀ tb, (f tb).name = tb.name) :
    ∀ bs, rawToolNames (updateLastTool f bs) = rawToolNames bs := by
  intro bs
  induction bs with
  | nil => rfl
  | cons b rest ih =>
      cases b with
      | text s =>
          rw [updateLastTool, rawToolNames_cons_text, rawToolNames_cons_text, ih]
      | tool tb =>
          rw [updateLastTool]
          by_cases h : hasTool rest
          · rw [if_pos h, rawToolNames_cons_tool, rawToolNames_cons_tool, ih]
          · rw [if_neg h, rawToolNames_cons_tool, rawToolNames_cons_tool, hf]

/-- Routing a text delta leaves the tool-block names unchanged. -/
theorem rawToolNames_appendTextDelta (s : String) :
    ∀ bs, rawToolNames (appendTextDelta s bs) = rawToolNames bs := by
  intro bs
  induction bs with
  | nil => rfl
  | cons b rest ih =>
      cases rest with
      | nil => cases b <;> rfl
      | cons c cs =>
          have hstep : appendTextDelta s (b :: c :: cs) = b :: appendTextDelta s (c :: cs) := by
            cases b <;> rfl
          rw [hstep]
          cases b with
          | text t => rw [rawToolNames_cons_text, rawToolNames_cons_text, ih]
          | tool tb => rw [rawToolNames_cons_tool, rawToolNames_cons_tool, ih]

/-- The stop patch never changes a block's name. -/
theorem stopPatch_name (P : String → Bool) (tb : ToolBlock) :
    (stopPatch P tb).name = tb.name := by
  obtain ⟨a, b, r, c⟩ := tb
  cases r with
  | none => rfl
  | some r' =>
      simp only [stopPatch]
      split_ifs <;> rfl

/-- Decoding preserves the correspondence between tool-block names and
the stream's tool_use block starts: the assembled blocks' names are the
start names, in stream order. -/
theorem decode_startNames (P : String → Bool) :
    ∀ (evs : List StreamEvent) (bs : List RawBlock),
      rawToolNames (evs.foldl (decodeStep P) bs) = rawToolNames bs ++ startNames evs := by
  intro evs
  induction evs with
  | nil => intro bs; simp [startNames]
  | cons e evs ih =>
      intro bs
      rw [List.foldl_cons, ih]
      cases e with
      | blockStartText =>
          rw [show decodeStep P bs StreamEvent.blockStartText = bs ++ [RawBlock.text ""]
              from rfl, rawToolNames_append,
            show rawToolNames [RawBlock.text ""] = [] from rfl, List.append_nil]
          rfl
      | blockStartToolUse n i =>
          rw [show decodeStep P bs (StreamEvent.blockStartToolUse n i) =
              bs ++ [RawBlock.tool ⟨n, i, none, JsonVal.emptyObj⟩] from rfl,
            rawToolNames_append, List.append_assoc]
          rfl
      | textDelta s =>
          rw [show decodeStep P bs (StreamEvent.textDelta s) = appendTextDelta s bs from rfl,
            rawToolNames_appendTextDelta]
          rfl
      | inputJsonDelta s =>
          rw [show decodeStep P bs (StreamEvent.inputJsonDelta s) =
              updateLastTool (fun tb => { tb with raw := some (tb.raw.getD "" ++ s) }) bs
              from rfl,
            rawToolNames_updateLastTool
              (fun tb => { tb with raw := some (tb.raw.getD "" ++ s) }) (fun tb => rfl)]
          rfl
      | blockStop =>
          rw [show decodeStep P bs StreamEvent.blockStop =
              updateLastTool (stopPatch P) bs from rfl,
            rawToolNames_updateLastTool _ (stopPatch_name P)]
          rfl
      | messageStop => rfl

/-- The call names of the final content are the assembled block names. -/
theorem toolCallsOf_names :
    ∀ bs : List RawBlock,
      (toolCallsOf (bs.map RawBlock.toContent)).map (fun c => c.1) = rawToolNames bs := by
  intro bs
  induction bs with
  | nil => rfl
  | cons b rest ih =>
      cases b with
      | text s =>
          rw [List.map_cons, show RawBlock.toContent (RawBlock.text s) = ContentBlock.text s
              from rfl, toolCallsOf_cons_text, ih, rawToolNames_cons_text]
      | tool tb =>
          rw [List.map_cons, show RawBlock.toContent (RawBlock.tool tb) =
              ContentBlock.toolUse tb.name tb.id tb.input from rfl,
            toolCallsOf_cons_tool, List.map_cons, ih, rawToolNames_cons_tool]

/-- Tool_start events of a stream are its start names, in order. -/
theorem streamToolStarts_startNames :
    ∀ evs : List StreamEvent,
      streamToolStarts evs = (startNames evs).map AgentEvent.toolStart := by
  intro evs
  induction evs with
  | nil => rfl
  | cons e evs ih =>
      cases e with
      | blockStartToolUse n i => exact congrArg (List.cons (AgentEvent.toolStart n)) ih
      | blockStartText => exact ih
      | textDelta s => exact ih
      | inputJsonDelta s => exact ih
      | blockStop => exact ih
      | messageStop => exact ih

/-- One result triple per call, keeping the call's name, in order. -/
theorem execTrace_names {W : Type} (eT : W → String → JsonVal → W × ToolOutcome) :
    ∀ (calls : List (String × String × JsonVal)) (w : W),
      (execTrace eT w calls).2.map (fun t => t.1) = calls.map (fun c => c.1) := by
  intro calls
  induction calls with
  | nil => intro w; rfl
  | cons c rest ih =>
      intro w
      obtain ⟨n, i, j⟩ := c
      simp only [execTrace, List.map_cons]
      rw [ih]

/-- Emission actions carry events and nothing else. -/
theorem emit_actions_project (l : List AgentEvent) :
    (l.map TurnAction.emit).filterMap TurnAction.emitOf = l ∧
    (l.map TurnAction.emit).filterMap TurnAction.callOf = [] ∧
    (l.map TurnAction.emit).filter TurnAction.isPush = [] := by
  induction l with
  | nil => exact ⟨rfl, rfl, rfl⟩
  | cons a t ih =>
      refine ⟨?_, ?_, ?_⟩ <;>
        simp only [List.map_cons, List.filterMap_cons, List.filter_cons]
      · rw [show TurnAction.emitOf (TurnAction.emit a) = some a from rfl, ih.1]
      · rw [show TurnAction.callOf (TurnAction.emit a) = none from rfl, ih.2.1]
      · rw [show TurnAction.isPush (TurnAction.emit a) = false from rfl]
        simp only [Bool.false_eq_true, if_false]
        exact ih.2.2

/-- The linearized for-loop agrees with the loop model: its emissions are
exactly `execOut`, its handler calls are the invocations in block order,
it pushes nothing onto the history, and its world and accumulated full
result texts are those of the sequential trace. -/
theorem batchSteps_spec {W : Type} (eT : W → String → JsonVal → W × ToolOutcome)
    (hbo : W → String → JsonVal → Nat) :
    ∀ (calls : List (String × String × JsonVal)) (w : W),
      (batchSteps eT hbo w calls).1.filterMap TurnAction.emitOf = execOut eT hbo w calls ∧
      (batchSteps eT hbo w calls).1.filterMap TurnAction.callOf =
        calls.map (fun c => (c.1, c.2.2)) ∧
      (batchSteps eT hbo w calls).1.filter TurnAction.isPush = [] ∧
      (batchSteps eT hbo w calls).2.1 = (execTrace eT w calls).1 ∧
      (batchSteps eT hbo w calls).2.2 =
        (execTrace eT w calls).2.map (fun t => ⟨t.2.1, t.2.2⟩) := by
  intro calls
  induction calls with
  | nil => intro w; exact ⟨rfl, rfl, rfl, rfl, rfl⟩
  | cons c rest ih =>
      intro w
      obtain ⟨n, i, j⟩ := c
      obtain ⟨ih1, ih2, ih3, ih4, ih5⟩ := ih (execCall eT w n j).1
      obtain ⟨hp1, hp2, hp3⟩ := emit_actions_project
        (heartbeats n (if n ∈ knownTools then hbo w n j else 0))
      refine ⟨?_, ?_, ?_, ?_, ?_⟩
      · simp only [batchSteps, execOut, List.filterMap_cons, List.filterMap_append,
          List.filterMap_nil, TurnAction.emitOf, hp1, ih1]
        by_cases hk : n ∈ knownTools
        · rw [if_pos hk, if_pos hk]
        · rw [if_neg hk, if_neg hk, show heartbeats n 0 = [] from rfl]
      · simp only [batchSteps, List.filterMap_cons, List.filterMap_append,
          List.filterMap_nil, TurnAction.callOf, hp2, ih2, List.map_cons,
          List.nil_append, List.append_nil]
      · simp only [batchSteps, List.filter_cons, List.filter_append, List.filter_nil,
          TurnAction.isPush, Bool.false_eq_true, if_false, hp3, ih3,
          List.nil_append, List.append_nil]
      · simp only [batchSteps, execTrace]
        exact ih4
      · simp only [batchSteps, execTrace, List.map_cons]
        rw [ih5]

/-! ## C4 — sequential tool execution and result recording -/

/-- C4 (amended): for a tool_use response whose content is assembled from
the stream: the tool_start events forwarded while streaming name the
invocations in block order; the tool loop emits exactly one tool_done per
invocation, in that same block order, carrying the 500-character preview
of that invocation's result; the linearized branch pushes the assistant
turn, performs the handler calls sequentially in block order with no
history push between them, and afterwards pushes one user turn holding
every full, untruncated result text keyed by the invocation's id; each
prefix of the results is already determined by the corresponding prefix
of the calls; and with the logging oracle the world records the calls in
block order. -/
theorem sequential_tool_execution {W : Type}
    (P : String → Bool) (eT : W → String → JsonVal → W × ToolOutcome)
    (hbo : W → String → JsonVal → Nat) (w : W) (evs : List StreamEvent)
    (content : List ContentBlock) (calls : List (String × String × JsonVal))
    (f : List (String × JsonVal) → String → JsonVal → String)
    (lw : List (String × JsonVal))
    (hc : content = (decodeBlocks P evs).map RawBlock.toContent)
    (hcalls : calls = toolCallsOf content)
    (hk : ∀ c ∈ calls, c.1 ∈ knownTools) :
    (streamEmits evs).filter AgentEvent.isToolStart =
      (calls.map (fun c => c.1)).map AgentEvent.toolStart ∧
    (execOut eT hbo w calls).filter AgentEvent.isToolDone =
      (execTrace eT w calls).2.map (fun t => AgentEvent.toolDone t.1 (jsTake t.2.2 500)) ∧
    (execTrace eT w calls).2.map (fun t => t.1) = calls.map (fun c => c.1) ∧
    batchActions eT hbo w content =
      TurnAction.pushHistory ⟨Role.assistant, MsgContent.blocks content⟩ ::
        (batchSteps eT hbo w calls).1 ++
        [TurnAction.pushHistory ⟨Role.user, MsgContent.toolResults
          ((execTrace eT w calls).2.map (fun t => ⟨t.2.1, t.2.2⟩))⟩] ∧
    (batchSteps eT hbo w calls).1.filter TurnAction.isPush = [] ∧
    (batchSteps eT hbo w calls).1.filterMap TurnAction.callOf =
      calls.map (fun c => (c.1, c.2.2)) ∧
    (batchSteps eT hbo w calls).1.filterMap TurnAction.emitOf = execOut eT hbo w calls ∧
    (∀ k, (execTrace eT w calls).2.take k = (execTrace eT w (calls.take k)).2) ∧
    (execTrace (loggerExec f) lw calls).1 = lw ++ calls.map (fun c => (c.1, c.2.2)) := by
  subst hcalls
  subst hc
  refine ⟨?_, ?_, ?_, ?_, ?_, ?_, ?_, ?_, ?_⟩
  · rw [streamEmits_toolStarts, streamToolStarts_startNames, toolCallsOf_names,
      decodeBlocks, decode_startNames P evs []]
    rfl
  · exact (execOut_filters eT hbo _ w).1
  · exact execTrace_names eT _ w
  · rw [batchActions,
      (batchSteps_spec eT hbo (toolCallsOf ((decodeBlocks P evs).map RawBlock.toContent))
        w).2.2.2.2]
  · exact (batchSteps_spec eT hbo _ w).2.2.1
  · exact (batchSteps_spec eT hbo _ w).2.1
  · exact (batchSteps_spec eT hbo _ w).1
  · exact fun k => execTrace_take eT _ w k
  · exact execTrace_logger f _ lw hk

/-- C4 (counterexample to the frozen wording): in a two-invocation batch
the full result text of the first tool is NOT appended to the
conversation history before the second tool executes — up to and
including the second handler call the only history push is the assistant
turn; the combined tool-results user turn is pushed only after the whole
batch. -/
theorem tool_result_history_push_deferred :
    batchActions (loggerExec (fun _ n _ => n ++ ":out")) (fun _ _ _ => 0)
        ([] : List (String × JsonVal))
        [ContentBlock.toolUse "run_command" "t1" JsonVal.emptyObj,
         ContentBlock.toolUse "read_file" "t2" JsonVal.emptyObj] =
      [TurnAction.pushHistory ⟨Role.assistant, MsgContent.blocks
         [ContentBlock.toolUse "run_command" "t1" JsonVal.emptyObj,
          ContentBlock.toolUse "read_file" "t2" JsonVal.emptyObj]⟩,
       TurnAction.callTool "run_command" JsonVal.emptyObj,
       TurnAction.emit (AgentEvent.toolDone "run_command" "run_command:out"),
       TurnAction.callTool "read_file" JsonVal.emptyObj,
       TurnAction.emit (AgentEvent.toolDone "read_file" "read_file:out"),
       TurnAction.pushHistory ⟨Role.user, MsgContent.toolResults
         [⟨"t1", "run_command:out"⟩, ⟨"t2", "read_file:out"⟩]⟩] ∧
    ((batchActions (loggerExec (fun _ n _ => n ++ ":out")) (fun _ _ _ => 0)
        ([] : List (String × JsonVal))
        [ContentBlock.toolUse "run_command" "t1" JsonVal.emptyObj,
         ContentBlock.toolUse "read_file" "t2" JsonVal.emptyObj]).take 4).filter
      TurnAction.isPush =
      [TurnAction.pushHistory ⟨Role.assistant, MsgContent.blocks
         [ContentBlock.toolUse "run_command" "t1" JsonVal.emptyObj,
          ContentBlock.toolUse "read_file" "t2" JsonVal.emptyObj]⟩] :=
  ⟨by decide, by decide⟩

theorem sequential_tool_execution_witness :
    ((streamEmits [StreamEvent.blockStartToolUse "run_command" "t1", StreamEvent.blockStop,
        StreamEvent.blockStartToolUse "read_file" "t2", StreamEvent.blockStop]).filter
        AgentEvent.isToolStart =
      (([("run_command", "t1", JsonVal.emptyObj),
         ("read_file", "t2", JsonVal.emptyObj)].map (fun c => c.1)).map
        AgentEvent.toolStart)) ∧
    ((execOut (loggerExec (fun _ n _ => n ++ ":out")) (fun _ _ _ => 0)
        ([] : List (String × JsonVal))
        [("run_command", "t1", JsonVal.emptyObj),
         ("read_file", "t2", JsonVal.emptyObj)]).filter AgentEvent.isToolDone =
      (execTrace (loggerExec (fun _ n _ => n ++ ":out")) ([] : List (String × JsonVal))
        [("run_command", "t1", JsonVal.emptyObj),
         ("read_file", "t2", JsonVal.emptyObj)]).2.map
        (fun t => AgentEvent.toolDone t.1 (jsTake t.2.2 500))) ∧
    ((execTrace (loggerExec (fun _ n _ => n ++ ":out")) ([] : List (String × JsonVal))
        [("run_command", "t1", JsonVal.emptyObj),
         ("read_file", "t2", JsonVal.emptyObj)]).2.map (fun t => t.1) =
      [("run_command", "t1", JsonVal.emptyObj),
       ("read_file", "t2", JsonVal.emptyObj)].map (fun c => c.1)) ∧
    (batchActions (loggerExec (fun _ n _ => n ++ ":out")) (fun _ _ _ => 0)
        ([] : List (String × JsonVal))
        [ContentBlock.toolUse "run_command" "t1" JsonVal.emptyObj,
         ContentBlock.toolUse "read_file" "t2" JsonVal.emptyObj] =
      TurnAction.pushHistory ⟨Role.assistant, MsgContent.blocks
          [ContentBlock.toolUse "run_command" "t1" JsonVal.emptyObj,
           ContentBlock.toolUse "read_file" "t2" JsonVal.emptyObj]⟩ ::
        (batchSteps (loggerExec (fun _ n _ => n ++ ":out")) (fun _ _ _ => 0)
          ([] : List (String × JsonVal))
          [("run_command", "t1", JsonVal.emptyObj),
           ("read_file", "t2", JsonVal.emptyObj)]).1 ++
        [TurnAction.pushHistory ⟨Role.user, MsgContent.toolResults
          ((execTrace (loggerExec (fun _ n _ => n ++ ":out")) ([] : List (String × JsonVal))
            [("run_command", "t1", JsonVal.emptyObj),
             ("read_file", "t2", JsonVal.emptyObj)]).2.map
            (fun t => ⟨t.2.1, t.2.2⟩))⟩]) ∧
    ((batchSteps (loggerExec (fun _ n _ => n ++ ":out")) (fun _ _ _ => 0)
        ([] : List (String × JsonVal))
        [("run_command", "t1", JsonVal.emptyObj),
         ("read_file", "t2", JsonVal.emptyObj)]).1.filter TurnAction.isPush = []) ∧
    ((batchSteps (loggerExec (fun _ n _ => n ++ ":out")) (fun _ _ _ => 0)
        ([] : List (String × JsonVal))
        [("run_command", "t1", JsonVal.emptyObj),
         ("read_file", "t2", JsonVal.emptyObj)]).1.filterMap TurnAction.callOf =
      [("run_command", "t1", JsonVal.emptyObj),
       ("read_file", "t2", JsonVal.emptyObj)].map (fun c => (c.1, c.2.2))) ∧
    ((batchSteps (loggerExec (fun _ n _ => n ++ ":out")) (fun _ _ _ => 0)
        ([] : List (String × JsonVal))
        [("run_command", "t1", JsonVal.emptyObj),
         ("read_file", "t2", JsonVal.emptyObj)]).1.filterMap TurnAction.emitOf =
      execOut (loggerExec (fun _ n _ => n ++ ":out")) (fun _ _ _ => 0)
        ([] : List (String × JsonVal))
        [("run_command", "t1", JsonVal.emptyObj),
         ("read_file", "t2", JsonVal.emptyObj)]) ∧
    (∀ k, (execTrace (loggerExec (fun _ n _ => n ++ ":out")) ([] : List (String × JsonVal))
        [("run_command", "t1", JsonVal.emptyObj),
         ("read_file", "t2", JsonVal.emptyObj)]).2.take k =
      (execTrace (loggerExec (fun _ n _ => n ++ ":out")) ([] : List (String × JsonVal))
        ([("run_command", "t1", JsonVal.emptyObj),
          ("read_file", "t2", JsonVal.emptyObj)].take k)).2) ∧
    ((execTrace (loggerExec (fun _ n _ => n ++ ":raw")) ([] : List (String × JsonVal))
        [("run_command", "t1", JsonVal.emptyObj),
         ("read_file", "t2", JsonVal.emptyObj)]).1 =
      ([] : List (String × JsonVal)) ++
        [("run_command", "t1", JsonVal.emptyObj),
         ("read_file", "t2", JsonVal.emptyObj)].map (fun c => (c.1, c.2.2))) :=
  sequential_tool_execution (fun _ => false)
    (loggerExec (fun _ n _ => n ++ ":out")) (fun _ _ _ => 0)
    ([] : List (String × JsonVal))
    [StreamEvent.blockStartToolUse "run_command" "t1", StreamEvent.blockStop,
     StreamEvent.blockStartToolUse "read_file" "t2", StreamEvent.blockStop]
    [ContentBlock.toolUse "run_command" "t1" JsonVal.emptyObj,
     ContentBlock.toolUse "read_file" "t2" JsonVal.emptyObj]
    [("run_command", "t1", JsonVal.emptyObj), ("read_file", "t2", JsonVal.emptyObj)]
    (fun _ n _ => n ++ ":raw") ([] : List (String × JsonVal))
    rfl rfl (by decide)
